import Mathlib

/-!
Verification development for the automaton-developer core
(src/Core/SymbolGroup.ts, src/Core/NFA.ts, src/Core/RunnableNFA.ts,
src/Util/sets.ts).  The definitions below are a shallow embedding of the
TypeScript source: immutable.js sets and maps are modelled as insertion
ordered duplicate-free lists, JS strings as Lean strings / lists of
characters, and the unbounded recursions of the source (the epsilon
closure and the DFS in explore) are modelled with an explicit fuel
parameter, where a result of none means the recursion did not finish
within the given depth.
-/

namespace AD

/-- A single symbol of a symbol group: none is the empty symbol epsilon,
which the source represents as the empty string, and some c is the one
character symbol c. -/
abbrev Sym := Option Char

/-- JS comparison of symbol strings as used by the sort in the SymbolGroup
constructor: the empty string sorts before every one character string, and
characters compare by code point. -/
def symLeb : Sym → Sym → Bool
  | none, _ => true
  | some _, none => false
  | some a, some b => decide (a.toNat ≤ b.toNat)

/-- Insert a symbol into a sorted list, keeping it sorted. -/
def insertSorted (x : Sym) : List Sym → List Sym
  | [] => [x]
  | y :: ys => if symLeb x y then x :: y :: ys else y :: insertSorted x ys

/-- Sort a list of symbols the way `symbols.sort()` does in the source. -/
def sortSyms (l : List Sym) : List Sym := l.foldr insertSorted []

/-- Add an element to a JS mutable Set modelled as an insertion ordered
duplicate-free list. -/
def addIfAbsentSym (acc : List Sym) (s : Sym) : List Sym :=
  if acc.contains s then acc else acc ++ [s]

/-- Model of the source CharRange class (SymbolGroup.ts, second revision):
a contiguous character range stored as start and end code points. -/
structure CharRange where
  rStart : Nat
  rEnd : Nat
deriving DecidableEq

/-- The CharRange constructor given first and last characters: if the end is
before the start they are swapped. -/
def CharRange.mk2 (a b : Char) : CharRange :=
  if b.toNat < a.toNat then ⟨b.toNat, a.toNat⟩ else ⟨a.toNat, b.toNat⟩

/-- The CharRange constructor given start and end code points (used by
finishRange in toString); swaps when needed, mirroring the source. -/
def CharRange.mk2n (a b : Nat) : CharRange :=
  if b < a then ⟨b, a⟩ else ⟨a, b⟩

/-- CharRange.size from the source: `this._end - this._start`.  Note that
this is one less than the number of characters in the range. -/
def CharRange.size (r : CharRange) : Nat := r.rEnd - r.rStart

/-- Whether the range contains a single character. -/
def CharRange.containsChar (r : CharRange) (c : Char) : Bool :=
  decide (r.rStart ≤ c.toNat) && decide (c.toNat ≤ r.rEnd)

/-- Whether the range contains another range. -/
def CharRange.containsRange (r s : CharRange) : Bool :=
  decide (r.rStart ≤ s.rStart) && decide (s.rEnd ≤ r.rEnd)

/-- CharRange.toString from the source: first char, a dash, last char. -/
def CharRange.toStr (r : CharRange) : String :=
  String.mk [Char.ofNat r.rStart, '-', Char.ofNat r.rEnd]

/-- The characters of the range, in increasing order (the range iterator). -/
def CharRange.chars (r : CharRange) : List Char :=
  (List.range (r.rEnd + 1 - r.rStart)).map (fun i => Char.ofNat (r.rStart + i))

/-- The `_allowedRanges` of the source: A-Z, a-z, 0-9, and the Cyrillic and
Greek letter ranges, by code point. -/
def allowedRanges : List CharRange :=
  [⟨65, 90⟩, ⟨97, 122⟩, ⟨48, 57⟩, ⟨0x410, 0x42F⟩, ⟨0x430, 0x44F⟩,
   ⟨0x391, 0x3A9⟩, ⟨0x3B1, 0x3C9⟩]

/-- Whether a character is matched by the regex dot (everything except line
terminators). -/
def dotMatch (c : Char) : Bool := c != '\n' && c != '\r'

/-- The truthy backslash escapes of `_fromSpecial`: the token backslash-c
maps to the given character.  (The keys of `_fromSpecial` that map to the
empty string are handled separately because the empty string is falsy in
JS, so the source never takes the special branch for them.) -/
def escSpecial : Char → Option Char
  | 'n' => some (Char.ofNat 10)
  | 'r' => some (Char.ofNat 13)
  | 't' => some (Char.ofNat 9)
  | 'f' => some (Char.ofNat 12)
  | 'v' => some (Char.ofNat 11)
  | '\\' => some '\\'
  | _ => none

/-- The character / backslash-sequence branch of the body of the
constructor loop, matching `/^\\?./`: returns the symbol set and input
after the iteration.  Note two faithful quirks of the source: a value of
the `_fromSpecial` map that is the empty string is falsy, so bare epsilon
or tilde characters inside a longer input are added literally; and when a
backslash escape is not special, the reassignment `match = match[1]`
makes the loop consume only one character (the backslash), so the escaped
character is parsed again. -/
def parseCharBranch : Char → List Char → List Sym → Option (List Sym × List Char)
  | '\\', [], acc =>
    -- on a lone backslash the regex backtracks and matches the backslash
    some (addIfAbsentSym acc (some '\\'), [])
  | '\\', c2 :: rest2, acc =>
    if dotMatch c2 then
      match escSpecial c2 with
      | some v => some (addIfAbsentSym acc (some v), rest2)
      | none => some (addIfAbsentSym acc (some c2), c2 :: rest2)
    else
      -- the dot cannot match the line terminator, so the regex backtracks
      -- and matches just the backslash
      some (addIfAbsentSym acc (some '\\'), c2 :: rest2)
  | c, rest, acc =>
    if dotMatch c then
      if c = '␣' then some (addIfAbsentSym acc (some ' '), rest)
      else some (addIfAbsentSym acc (some c), rest)
    else none

/-- One iteration of the scanning loop of the SymbolGroup constructor
(second revision of SymbolGroup.ts), specialised to the default
delimiter, a single space.  Branches in source order: delimiter,
character range, character or backslash sequence.  Returns none when no
branch matches, which in the source is an infinite loop. -/
def parseStep : List Char → List Sym → Option (List Sym × List Char)
  | [], acc => some (acc, [])
  | c :: '-' :: c3 :: rest3, acc =>
    if c = ' ' then some (acc, '-' :: c3 :: rest3)
    else if dotMatch c && dotMatch c3 then
      let r := CharRange.mk2 c c3
      let acc2 :=
        if allowedRanges.any (fun ar => ar.containsRange r) then
          r.chars.foldl (fun a ch => addIfAbsentSym a (some ch)) acc
        else acc
      some (acc2, rest3)
    else parseCharBranch c ('-' :: c3 :: rest3) acc
  | c :: rest, acc =>
    if c = ' ' then some (acc, rest)
    else parseCharBranch c rest acc

/-- The while loop of the constructor: iterate parseStep until the input
is empty.  Every iteration consumes at least one character, so the input
length bounds the number of iterations and the bound is never reached. -/
def parseIter : Nat → List Char → List Sym → Option (List Sym)
  | _, [], acc => some acc
  | 0, _ :: _, _ => none
  | bound + 1, input, acc =>
    (parseStep input acc).bind fun p => parseIter bound p.2 p.1

/-- The scanning loop on a whole input. -/
def parseLoop (input : List Char) (acc : List Sym) : Option (List Sym) :=
  parseIter input.length input acc

/-- Model of the source SymbolGroup class (second revision): the ordered
set `_symbols`, sorted by code point with the empty symbol first.  The
`_normalized` field of the source is derived (the constructor always sets
it to `this.toString(" ")`), so it is modelled as a function below. -/
structure SymbolGroup where
  syms : List Sym
deriving DecidableEq

/-- The SymbolGroup constructor on a string input with the default
delimiter: the special cases for empty input, a bare tilde or epsilon
(which, faithfully to the source, add nothing to the set even though the
comment there says they denote epsilon), and a single character taken
literally; otherwise the scanning loop followed by the sort. -/
def SymbolGroup.ofString? (s : String) : Option SymbolGroup :=
  let input := s.toList
  if input = [] ∨ input = ['~'] ∨ input = ['ε'] then some ⟨[]⟩
  else
    match input with
    | [c] => some ⟨[some c]⟩
    | _ => (parseLoop input []).map fun syms => ⟨sortSyms syms⟩

/-- The `_toSpecial` map (`_fromSpecial.flip()`) on a symbol.  For the
empty symbol both epsilon and tilde map to it in `_fromSpecial`, and the
flip keeps the later entry, the tilde. -/
def toSpecialStr : Sym → Option String
  | none => some "~"
  | some c =>
    if c = ' ' then some "␣"
    else if c = '\\' then some "\\\\"
    else if c.toNat = 10 then some "\\n"
    else if c.toNat = 13 then some "\\r"
    else if c.toNat = 9 then some "\\t"
    else if c.toNat = 12 then some "\\f"
    else if c.toNat = 11 then some "\\v"
    else none

/-- The outputForm closure of SymbolGroup.toString: special form if
possible, else escaped if the symbol is the delimiter or a key of
`_fromSpecial`, else the symbol itself. -/
def outputForm (delim : String) (s : Sym) : String :=
  match toSpecialStr s with
  | some t => t
  | none =>
    match s with
    | none => "~"
    | some c =>
      if String.singleton c = delim || c = 'ε' || c = '~' || c = '␣' then
        "\\" ++ String.singleton c
      else String.singleton c

/-- The state of the toString loop: the output blocks, and the character
range in progress (the allowed range it lives in, its first and its last
code point), if any. -/
structure TSState where
  blocks : List String
  rangeInfo : Option (CharRange × Nat × Nat)
deriving DecidableEq

/-- The finishRange closure of toString: emit the range in progress either
as x-y or symbol by symbol, depending on the length comparison that uses
CharRange.size. -/
def finishRange (delim : String) (st : TSState) : List String :=
  match st.rangeInfo with
  | none => st.blocks
  | some (_, rs, re) =>
    let fr := CharRange.mk2n rs re
    let rangeLen : Int := (fr.toStr.length : Int)
    let otherLen : Int := (fr.size : Int) + ((fr.size : Int) - 1) * (delim.length : Int)
    if rangeLen < otherLen then st.blocks ++ [fr.toStr]
    else st.blocks ++ (fr.chars.map fun c => outputForm delim (some c))

/-- Processing of one symbol that is not being skipped, with no range in
progress: begin a range if the first allowed range contains the symbol,
else output the symbol. -/
def freshSym (delim : String) (st : TSState) (s : Sym) : TSState :=
  match s with
  | some c =>
    match allowedRanges.find? (fun ar => ar.containsChar c) with
    | some ar => { st with rangeInfo := some (ar, c.toNat, c.toNat) }
    | none => { st with blocks := st.blocks ++ [outputForm delim (some c)] }
  | none => { st with blocks := st.blocks ++ [outputForm delim none] }

/-- One iteration of the toString loop on a symbol (after the includeEmpty
skip): either continue the range in progress, or finish it and fall
through to the fresh-symbol handling. -/
def tsStep (delim : String) (st : TSState) (s : Sym) : TSState :=
  match st.rangeInfo with
  | some (ar, _, re) =>
    match s with
    | some c =>
      if c.toNat = re + 1 && ar.containsChar c then
        { st with rangeInfo := st.rangeInfo.map fun (a, rs, _) => (a, rs, c.toNat) }
      else freshSym delim ⟨finishRange delim st, none⟩ s
    | none => freshSym delim ⟨finishRange delim st, none⟩ none
  | none => freshSym delim st s

/-- SymbolGroup.toString(delimiter, includeEmpty) of the source. -/
def SymbolGroup.toStr (g : SymbolGroup) (delim : String) (includeEmpty : Bool) : String :=
  let st := g.syms.foldl
    (fun st s =>
      if s = none && !includeEmpty then st
      else tsStep delim st s)
    ⟨[], none⟩
  String.intercalate delim (finishRange delim st)

/-- The `_normalized` field of a group: the constructor sets it to
`this.toString(" ")`, i.e. with the default includeEmpty = false. -/
def SymbolGroup.normalized (g : SymbolGroup) : String := g.toStr " " false

/-- SymbolGroup.has. -/
def SymbolGroup.has (g : SymbolGroup) (s : Sym) : Bool := g.syms.contains s

/-- SymbolGroup.equals: comparison of the normalized strings. -/
def SymbolGroup.equals (g h : SymbolGroup) : Bool := g.normalized = h.normalized

/-- SymbolGroup.size. -/
def SymbolGroup.size (g : SymbolGroup) : Nat := g.syms.length

/-- A SymbolGroupInput of the source: a group, a string, or undefined. -/
inductive SGInput where
  | grp (g : SymbolGroup)
  | str (s : String)
  | nothing
deriving DecidableEq

/-- The SymbolGroup constructor on a SymbolGroupInput: undefined gives the
empty group, an existing group is returned as is, and a string is
parsed. -/
def SymbolGroup.ofInput? : SGInput → Option SymbolGroup
  | .grp g => some g
  | .str s => SymbolGroup.ofString? s
  | .nothing => some ⟨[]⟩

/-- The static SymbolGroup.merge: concatenate the normalized strings (or
raw strings; an empty string input is falsy and skipped) with spaces and
parse the result. -/
def SymbolGroup.mergeMany (gs : List SGInput) : Option SymbolGroup :=
  SymbolGroup.ofString? (gs.foldl
    (fun acc gi =>
      match gi with
      | .grp g => acc ++ " " ++ g.normalized
      | .str s => if s = "" then acc else acc ++ " " ++ s
      | .nothing => acc)
    "")

/-- The instance method SymbolGroup.merge: merge with one other input and
keep the receiver if nothing changed. -/
def SymbolGroup.mergeInst (g : SymbolGroup) (other : SGInput) : Option SymbolGroup :=
  (SymbolGroup.mergeMany [.grp g, other]).map fun merged =>
    if g.equals merged then g else merged

/-- Modelled from the spec: SymbolGroup.subtract is called by complete()
(NFA.ts line 1299) but is absent from the captured source of
SymbolGroup.ts.  Per spec section 4.1, subtract returns the set
difference of the receiver and its arguments (and the receiver itself
when the difference equals it, which at the value level is the same
list). -/
def SymbolGroup.subtract (g other : SymbolGroup) : SymbolGroup :=
  ⟨g.syms.filter (fun s => !(other.syms.contains s))⟩

/-- The inner loop of Util/sets.ts shareAny and SymbolGroup.shareAny:
walk one collection adding its elements to the union, returning none as
soon as an element is already in the union. -/
def shareAnyScan {α : Type} [DecidableEq α] : List α → List α → Option (List α)
  | union, [] => some union
  | union, x :: xs =>
    if union.contains x then none else shareAnyScan (union ++ [x]) xs

/-- The outer loop of shareAny over the collections. -/
def shareAnyGo {α : Type} [DecidableEq α] : List α → List (List α) → Bool
  | _, [] => false
  | union, s :: rest =>
    match shareAnyScan union s with
    | none => true
    | some u2 => shareAnyGo u2 rest

/-- shareAny of Util/sets.ts (and, on the symbol lists of groups,
SymbolGroup.shareAny, whose loop is identical): true exactly when some
element occurs twice across the walk of the collections. -/
def shareAny {α : Type} [DecidableEq α] (sets : List (List α)) : Bool :=
  shareAnyGo [] sets

/-- SymbolGroup.shareAny on a list of groups. -/
def SymbolGroup.shareAnyG (gs : List SymbolGroup) : Bool :=
  shareAny (gs.map SymbolGroup.syms)

/-! ## Association lists modelling immutable.js maps -/

/-- Map.get. -/
def alookup {α β : Type} [DecidableEq α] : List (α × β) → α → Option β
  | [], _ => none
  | (k, v) :: rest, key => if k = key then some v else alookup rest key

/-- Map.set: replace in place if the key exists, else append. -/
def aset {α β : Type} [DecidableEq α] : List (α × β) → α → β → List (α × β)
  | [], key, v => [(key, v)]
  | (k, w) :: rest, key, v =>
    if k = key then (k, v) :: rest else (k, w) :: aset rest key v

/-- Map.delete. -/
def adel {α β : Type} [DecidableEq α] (l : List (α × β)) (key : α) : List (α × β) :=
  l.filter (fun p => p.1 ≠ key)

/-- Set.add on an insertion ordered duplicate-free list. -/
def addIfAbsent (l : List Nat) (x : Nat) : List Nat :=
  if l.contains x then l else l ++ [x]

/-! ## The NFA model

One structure holds the fields of the second revision of NFA.ts together
with the running fields its subclass RunnableNFA adds.  The `_cache`
object is not modelled: every derived value is recomputed on read, which
coincides with the source whenever the cache is empty or consistent (all
the concrete evaluations below start from freshly built automata).  The
static id allocator NFA.nextID is carried as a field and threaded through
the operations. -/

structure NFA where
  nextID : Nat
  alphaSet : Option SymbolGroup
  statesL : List Nat
  start : Nat
  names : List (Nat × String)
  accept : List Nat
  trans : List (Nat × List (Nat × SymbolGroup))
  mutableFlag : Bool
  current : List Nat
  remaining : List Char
  numRead : Int
  followed : List ((Nat × Nat) × Int)
deriving DecidableEq

/-- NFA.state: a state id, or 0 if it is not a member of the state set. -/
def NFA.state (A : NFA) (s : Nat) : Nat :=
  if A.statesL.contains s then s else 0

/-- NFA.transitionsFrom: the transition map of a state (empty on fail). -/
def NFA.transitionsFrom (A : NFA) (o : Nat) : List (Nat × SymbolGroup) :=
  (alookup A.trans (A.state o)).getD []

/-- NFA.hasTransition (without the optional symbol argument, which no
modelled call site passes). -/
def NFA.hasTransition (A : NFA) (o t : Nat) : Bool :=
  let o := A.state o
  let t := A.state t
  if o = 0 ∨ t = 0 then false
  else
    match alookup A.trans o with
    | none => false
    | some inner =>
      match alookup inner t with
      | none => false
      | some _ => true

/-- NFA.symbols: the symbol group of a transition (empty group if none). -/
def NFA.symbols (A : NFA) (o t : Nat) : SymbolGroup :=
  let o := A.state o
  let t := A.state t
  match alookup A.trans o with
  | none => ⟨[]⟩
  | some inner => (alookup inner t).getD ⟨[]⟩

/-- NFA.isAccept. -/
def NFA.isAccept (A : NFA) (s : Nat) : Bool := A.accept.contains (A.state s)

/-- NFA.isStart: `!!state && this._start === state`. -/
def NFA.isStart (A : NFA) (s : Nat) : Bool :=
  let s := A.state s
  s ≠ 0 && A.start = s

/-- NFA.name: the stored name, or the empty string. -/
def NFA.name (A : NFA) (s : Nat) : String := (alookup A.names s).getD ""

/-- NFA.numStates. -/
def NFA.numStates (A : NFA) : Nat := A.statesL.length

/-- RunnableNFA.isRunning: `_numRead !== -1`. -/
def NFA.isRunning (A : NFA) : Bool := A.numRead ≠ -1

/-- RunnableNFA.isCurrentState. -/
def NFA.isCurrentState (A : NFA) (s : Nat) : Bool := A.current.contains (A.state s)

/-- NFA.explore, with fuel bounding the recursion depth (each nested call
of the source consumes one unit; none means the depth bound was hit,
which cannot happen when the fuel exceeds the number of states, since
every non-early call adds a previously unvisited state to visited).  The
two for loops of the source are the folds, threading the visited set. -/
def exploreFuel (A : NFA) : Bool → Nat → Nat → List Nat → Option (List Nat)
  | _, 0, _, _ => none
  | bw, fuel + 1, st, visited =>
    if visited.contains st then some visited
    else
      let visited := visited ++ [st]
      if bw then
        A.statesL.foldl
          (fun acc o => acc.bind fun v =>
            if A.hasTransition o st then exploreFuel A true fuel o v else some v)
          (some visited)
      else
        (A.transitionsFrom st).foldl
          (fun acc tg => acc.bind fun v => exploreFuel A false fuel tg.1 v)
          (some visited)

/-- NFA.generatingStates: backwards DFS from every accept state.  The fuel
`numStates + 2` strictly exceeds the depth of the source recursion (a
chain of nested calls adds a new state to visited at every level except
possibly the last), so the `getD` default is never taken. -/
def NFA.generatingStates (A : NFA) : List Nat :=
  A.accept.foldl
    (fun visited st => (exploreFuel A true (A.statesL.length + 2) st visited).getD visited)
    []

/-- NFA.generating. -/
def NFA.generating (A : NFA) (s : Nat) : Bool :=
  A.generatingStates.contains (A.state s)

/-- NFA.isDFA (the uncached computation): false as soon as some state has
an outgoing empty-symbol transition or two outgoing groups sharing a
symbol. -/
def NFA.isDFA (A : NFA) : Bool :=
  A.statesL.all fun origin =>
    let ts := A.transitionsFrom origin
    !(ts.any fun p => p.2.has none) && !(SymbolGroup.shareAnyG (ts.map Prod.snd))

/-- NFA.minimalAlphabet: merge of every transition group, then of the
optional include argument. -/
def NFA.minimalAlphabet (A : NFA) (inc : SGInput) : Option SymbolGroup :=
  let allGroups := A.statesL.flatMap fun o => (A.transitionsFrom o).map Prod.snd
  (SymbolGroup.mergeMany (allGroups.map SGInput.grp)).bind fun m => m.mergeInst inc

/-- The alphabet getter: the explicit alphabet if set, else the minimal
alphabet. -/
def NFA.alphabet (A : NFA) : Option SymbolGroup :=
  match A.alphaSet with
  | some al => some al
  | none => A.minimalAlphabet .nothing

/-- NFA.symbolsFrom: merge of the groups of all outgoing transitions. -/
def NFA.symbolsFrom (A : NFA) (o : Nat) : Option SymbolGroup :=
  SymbolGroup.mergeMany (((A.transitionsFrom o).map Prod.snd).map SGInput.grp)

/-! ## Mutators

Each mutator returns the resulting value together with a Boolean that is
true exactly when the source returns the receiver object itself: on the
early no-op paths, and on the mutate path when the receiver is in mutable
mode (`this.mutable()` then returns `this`).  In immutable mode the
mutate path goes through `mutableCopy`, a fresh object. -/

/-- NFA.addState. -/
def NFA.addState (A : NFA) (nm : String) : NFA × Bool :=
  let id := A.nextID
  ({ A with nextID := id + 1,
            statesL := A.statesL ++ [id],
            names := aset A.names id nm,
            trans := aset A.trans id [] },
   A.mutableFlag)

/-- NFA.removeTransition. -/
def NFA.removeTransition (A : NFA) (o t : Nat) : NFA × Bool :=
  let o := A.state o
  let t := A.state t
  if ¬ A.hasTransition o t then (A, true)
  else
    let inner := (alookup A.trans o).getD []
    ({ A with trans := aset A.trans o (adel inner t) }, A.mutableFlag)

/-- NFA.removeState: delete the outgoing transition map, then every
transition into the state, then the state itself.  (Faithfully to the
source, the accept set, the name map and the start field are left
untouched.) -/
def NFA.removeState (A : NFA) (s : Nat) : NFA × Bool :=
  let s := A.state s
  if s = 0 then (A, true)
  else
    let A1 := { A with trans := adel A.trans s }
    let A2 := (A1.trans.map Prod.fst).foldl (fun acc o => (acc.removeTransition o s).1) A1
    ({ A2 with statesL := A2.statesL.filter (· ≠ s) }, A.mutableFlag)

/-- NFA.setAccept. -/
def NFA.setAccept (A : NFA) (s : Nat) (b : Bool) : NFA × Bool :=
  let s := A.state s
  if s = 0 ∨ A.isAccept s = b then (A, true)
  else
    ({ A with accept := if b then A.accept ++ [s] else A.accept.filter (· ≠ s) },
     A.mutableFlag)

/-- NFA.toggleAccept. -/
def NFA.toggleAccept (A : NFA) (s : Nat) : NFA × Bool :=
  A.setAccept s (!A.isAccept s)

/-- NFA.setName. -/
def NFA.setName (A : NFA) (s : Nat) (nm : String) : NFA × Bool :=
  let s := A.state s
  if s = 0 ∨ A.name s = nm then (A, true)
  else ({ A with names := aset A.names s nm }, A.mutableFlag)

/-- NFA.setStart: note that when the argument is not a member state it has
already been coerced to 0, isStart(0) is false, and the start field is
therefore set to 0. -/
def NFA.setStart (A : NFA) (s : Nat) : NFA × Bool :=
  let s := A.state s
  if A.isStart s then (A, true)
  else ({ A with start := s }, A.mutableFlag)

/-- NFA.setTransition of the NFA base class: coerce the ids, parse the
input, no-op when the group equals the existing one, else update the
edge, merging the new symbols into an explicit alphabet if one is set.
None only when parsing the input string does not terminate in the
source. -/
def NFA.setTransitionCore (A : NFA) (o t : Nat) (inp : SGInput) : Option (NFA × Bool) :=
  let o := A.state o
  let t := A.state t
  if o = 0 ∨ t = 0 then some (A, true)
  else
    (SymbolGroup.ofInput? inp).bind fun g =>
      if A.hasTransition o t ∧ g.equals (A.symbols o t) then some (A, true)
      else
        (match A.alphaSet with
          | some al => (al.mergeInst (.grp g)).map Option.some
          | none => some none).map fun alpha2 =>
          let inner := (alookup A.trans o).getD []
          ({ A with alphaSet := alpha2, trans := aset A.trans o (aset inner t g) },
           A.mutableFlag)

/-! ## The simulation (RunnableNFA.ts) -/

/-- RunnableNFA of `_followEmptyTransitions`, with fuel bounding the
recursion depth: none models a recursion that does not finish within the
given depth (the source has no visited set, so on a cyclic epsilon graph
it does not finish for any depth).  The two for loops of the source are
the folds, threading the automaton whose current set and followed map
the source mutates in place; the transition list of each origin is read
once at its loop entry, as in the source (the closure never changes the
transition map).  When called without onlyFrom the source iterates the
live current set while adding to it; this is modelled as iterating a
snapshot, which agrees with the source whenever no state is added during
that iteration (the recursive calls handle the added states in both). -/
def followEmptyFuel : Nat → NFA → Option Nat → Option NFA
  | 0, _, _ => none
  | fuel + 1, A, onlyFrom =>
    if ¬ (A.isRunning && A.mutableFlag) then some A
    else
      let origins := match onlyFrom with
        | none => A.current
        | some s => [s]
      origins.foldl
        (fun acc o => acc.bind fun A1 =>
          (A1.transitionsFrom o).foldl
            (fun acc2 tg => acc2.bind fun A2 =>
              if tg.2.has none then
                let A3 := { A2 with current := addIfAbsent A2.current tg.1,
                                    followed := aset A2.followed (o, tg.1) A2.numRead }
                followEmptyFuel fuel A3 (some tg.1)
              else some A2)
            (some A1))
        (some A)

/-- RunnableNFA.reset: begin running from the epsilon closure of the start
state; an omitted input keeps the previous remaining input. -/
def NFA.reset (fuel : Nat) (A : NFA) (input : Option (List Char)) : Option NFA :=
  let A1 := { A with mutableFlag := true,
                     numRead := 0,
                     remaining := input.getD A.remaining,
                     followed := [],
                     current := [A.start] }
  (followEmptyFuel fuel A1 none).map fun A2 =>
    if A.mutableFlag then A2 else { A2 with mutableFlag := false }

/-- RunnableNFA.step: when not running, reset instead; when the remaining
input is empty, a no-op; otherwise consume one symbol, follow every
matching transition from every current state, and close under
empty-symbol transitions. -/
def NFA.step (fuel : Nat) (A : NFA) : Option NFA :=
  if ¬ A.isRunning then A.reset fuel none
  else
    match A.remaining with
    | [] => some A
    | c :: rest =>
      let A1 := { A with mutableFlag := true, remaining := rest, numRead := A.numRead + 1 }
      let stepped := A1.current.foldl
        (fun (p : List Nat × List ((Nat × Nat) × Int)) o =>
          (A1.transitionsFrom o).foldl
            (fun (q : List Nat × List ((Nat × Nat) × Int)) tg =>
              if tg.2.has (some c) then
                (addIfAbsent q.1 tg.1, aset q.2 (o, tg.1) A1.numRead)
              else q)
            p)
        ([], A1.followed)
      (followEmptyFuel fuel { A1 with current := stepped.1, followed := stepped.2 } none).map
        fun A2 => if A.mutableFlag then A2 else { A2 with mutableFlag := false }

/-- RunnableNFA.result: 0 when not running; else 1, 0 or -1 according to
whether the current set meets the accept set, else the generating set,
else neither. -/
def NFA.result (A : NFA) : Int :=
  if ¬ A.isRunning then 0
  else if shareAny [A.current, A.accept] then 1
  else if shareAny [A.current, A.generatingStates] then 0
  else -1

/-- The while loop of RunnableNFA.run, bounded by the length of the
remaining input (each iteration consumes one symbol). -/
def runLoop (fuel : Nat) : Nat → NFA → Option NFA
  | 0, A => some A
  | bound + 1, A =>
    if A.remaining ≠ [] ∧ A.result ≠ -1 then (A.step fuel).bind (runLoop fuel bound)
    else some A

/-- RunnableNFA.run: return unchanged on a definite reject; append the
extra input; reset first when not running; then step while input remains
and the result is not a definite reject. -/
def NFA.run (fuel : Nat) (A : NFA) (input : List Char) : Option NFA :=
  if A.result = -1 then some A
  else
    let A1 := if input ≠ [] then
        { A with mutableFlag := true, remaining := A.remaining ++ input }
      else { A with mutableFlag := true }
    (if ¬ A1.isRunning then A1.reset fuel none else some A1).bind fun A2 =>
      (runLoop fuel A2.remaining.length A2).map fun A3 =>
        if A.mutableFlag then A3 else { A3 with mutableFlag := false }

/-- RunnableNFA.accepts: run a mutable copy on the input from a reset and
compare the result with 1.  The copy shares every collection of the
receiver by reference and is therefore the same value. -/
def NFA.accepts (fuel : Nat) (A : NFA) (input : List Char) : Option Bool :=
  let C := { A with mutableFlag := true }
  (C.reset fuel (some input)).bind fun C1 =>
    (C1.run fuel []).map fun C2 => C2.result = 1

/-- RunnableNFA.setTransition (the override): when the automaton is
running, the origin is current and the new group contains the empty
symbol, additionally add the target to the current set and close under
empty transitions; otherwise defer to the base class. -/
def NFA.setTransitionR (fuel : Nat) (A : NFA) (o t : Nat) (inp : SGInput) :
    Option (NFA × Bool) :=
  if A.isRunning && A.isCurrentState o then
    (SymbolGroup.ofInput? inp).bind fun g =>
      if g.has none then
        (A.setTransitionCore o t inp).bind fun st =>
          let A1 := { st.1 with mutableFlag := true,
                                current := addIfAbsent st.1.current t }
          (followEmptyFuel fuel A1 (some t)).map fun A2 =>
            (if A.mutableFlag then A2 else { A2 with mutableFlag := false }, A.mutableFlag)
      else A.setTransitionCore o t inp
  else A.setTransitionCore o t inp

/-! ## complete(), the definition codec and init -/

/-- The loop of NFA.complete over all states: route every uncovered
alphabet symbol of each state to the chosen non-generating state. -/
def completeLoop (fuel : Nat) (ng : Nat) :
    List Nat → NFA → Bool → Option (NFA × Bool)
  | [], nfa, modified => some (nfa, modified)
  | origin :: os, nfa, modified =>
    nfa.alphabet.bind fun alpha =>
      (nfa.symbolsFrom origin).bind fun sf =>
        let remainingSymbols := alpha.subtract sf
        if remainingSymbols.size ≠ 0 then
          (nfa.setTransitionR fuel origin ng (.grp remainingSymbols)).bind fun st =>
            completeLoop fuel ng os st.1 true
        else completeLoop fuel ng os nfa modified

/-- NFA.complete: pick the last non-generating state (or create a new
"Reject" state), then add a transition on the uncovered alphabet symbols
of every state towards it; return the receiver when nothing changed. -/
def NFA.complete (fuel : Nat) (A : NFA) : Option (NFA × Bool) :=
  let gen := A.generatingStates
  let ng0 :=
    if gen.length ≠ A.numStates then
      A.statesL.foldl (fun acc st => if A.generating st then acc else st) 0
    else 0
  let pair := if ng0 = 0 then ((A.addState "Reject").1, A.nextID) else (A, ng0)
  (completeLoop fuel pair.2 pair.1.statesL pair.1 false).map fun res =>
    if !res.2 then (A, true) else (res.1, A.mutableFlag)

/-- The serializable definition of section 6 of the spec (IDefinition of
the source); the optional fields are modelled as plain lists and an
optional string. -/
structure IDefinition where
  n : Nat
  dnames : List String
  daccept : List Nat
  dtransitions : List (List (Nat × String))
  dalphabet : Option String
deriving DecidableEq

/-- Insertion sort of an index/string transition row by index, modelling
the numeric sort in toDefinition. -/
def insertByIdx (x : Nat × String) : List (Nat × String) → List (Nat × String)
  | [] => [x]
  | y :: ys => if x.1 ≤ y.1 then x :: y :: ys else y :: insertByIdx x ys

/-- Sort a transition row by target index. -/
def sortByIdx (l : List (Nat × String)) : List (Nat × String) :=
  l.foldr insertByIdx []

/-- NFA.toDefinition: normalize the ids so that the start state is index 0
and the remaining states follow in iteration order; each transition
symbol group is serialized through toString with the default arguments,
i.e. without the empty symbol. -/
def NFA.toDefinition (A : NFA) : IDefinition :=
  let toState := A.start :: A.statesL.filter (· ≠ A.start)
  let fromState := fun s => toState.indexOf s
  { n := A.numStates,
    dnames := toState.map A.name,
    daccept := toState.enum.filterMap fun p =>
      if A.isAccept p.2 then some p.1 else none,
    dtransitions := toState.map fun origin =>
      sortByIdx ((A.transitionsFrom origin).map fun tg =>
        (fromState tg.1, tg.2.toStr " " false)),
    dalphabet := A.alphaSet.map fun al => al.toStr " " false }

/-- The transition rows of init: parse each row against the id map,
skipping targets outside it. -/
def initRow (idMap : List Nat) : List (Nat × String) →
    List (Nat × SymbolGroup) → Option (List (Nat × SymbolGroup))
  | [], inner => some inner
  | (targetID, s) :: rest, inner =>
    match idMap.get? targetID with
    | none => initRow idMap rest inner
    | some target =>
      (SymbolGroup.ofString? s).bind fun g => initRow idMap rest (aset inner target g)

/-- The outer transition loop of init over the first n rows. -/
def initRows (idMap : List Nat) :
    List (Nat × List (Nat × String)) →
    List (Nat × List (Nat × SymbolGroup)) → Option (List (Nat × List (Nat × SymbolGroup)))
  | [], tr => some tr
  | (origin, row) :: rest, tr =>
    (initRow idMap row ((alookup tr origin).getD [])).bind fun inner =>
      initRows idMap rest (aset tr origin inner)

/-- NFA.init on a definition (together with RunnableNFA._init, which adds
the not-running simulation fields): allocate n fresh ids, default names,
then apply the names, transitions, accept indices and optional alphabet
of the definition.  The first parameter is the value of the shared
allocator NFA.nextID before the call. -/
def initNFA (nextID0 : Nat) (d : IDefinition) (mutb : Bool) : Option NFA :=
  let idMap := (List.range d.n).map (nextID0 + ·)
  let base : NFA :=
    { nextID := nextID0 + d.n,
      alphaSet := none,
      statesL := idMap,
      start := (idMap.get? 0).getD 0,
      names := idMap.enum.map fun p => (p.2, toString p.1),
      accept := [],
      trans := idMap.map fun st => (st, []),
      mutableFlag := true,
      current := [],
      remaining := [],
      numRead := -1,
      followed := [] }
  let names2 := (idMap.zip d.dnames).foldl (fun m p => aset m p.1 p.2) base.names
  let withNames := { base with names := names2 }
  (initRows idMap (idMap.zip d.dtransitions) withNames.trans).bind fun trans2 =>
    let withTrans := { withNames with trans := trans2 }
    let accept2 := (d.daccept.foldl addIfAbsent []).filterMap fun i => idMap.get? i
    let withAccept := { withTrans with accept := accept2 }
    (match d.dalphabet with
      | none => some none
      | some s =>
        if s = "" then some none
        else (withAccept.minimalAlphabet (.str s)).map Option.some).map fun alpha =>
      { withAccept with alphaSet := alpha, mutableFlag := mutb }

/-! ## A heap model of the accepts() pipeline

accepts() must never change its receiver even though the copy it runs on
shares every collection of the receiver by reference, so the distinction
between rebinding a field and mutating a collection in place matters.
The collections are therefore given explicit identity here: a heap maps
references to collection cells, the object holds references, and every
in-place mutation of the source is a write to a cell.  The model covers
the functions the accepts() pipeline runs: mutableCopy, reset, run, step,
result, the generatingStates getter with its cache slot, explore, and the
epsilon closure.  Fuel bounds the depth of the two recursions that the
source leaves unbounded; a run truncated by fuel performs a prefix of the
writes of the source run, so a frame theorem quantified over all fuels
covers the source behaviour. -/

inductive Cell where
  | natSet (xs : List Nat)
  | nameMap (m : List (Nat × String))
  | transOuter (m : List (Nat × Nat))
  | transInner (m : List (Nat × SymbolGroup))
  | folMap (m : List ((Nat × Nat) × Int))
deriving DecidableEq

/-- The heap: cells indexed by allocation order. -/
abbrev Heap := List Cell

/-- Allocate a cell, returning the extended heap and the reference. -/
def Heap.alloc (h : Heap) (c : Cell) : Heap × Nat := (h ++ [c], h.length)

/-- Overwrite the cell at a reference (in-place mutation). -/
def Heap.write (h : Heap) (r : Nat) (c : Cell) : Heap := h.set r c

/-- Read a state-set cell. -/
def Heap.readSet (h : Heap) (r : Nat) : List Nat :=
  match h[r]? with
  | some (.natSet xs) => xs
  | _ => []

/-- Read a name-map cell. -/
def Heap.readNames (h : Heap) (r : Nat) : List (Nat × String) :=
  match h[r]? with
  | some (.nameMap m) => m
  | _ => []

/-- Read the outer transition-map cell (origin to inner reference). -/
def Heap.readOuter (h : Heap) (r : Nat) : List (Nat × Nat) :=
  match h[r]? with
  | some (.transOuter m) => m
  | _ => []

/-- Read an inner transition-map cell. -/
def Heap.readInner (h : Heap) (r : Nat) : List (Nat × SymbolGroup) :=
  match h[r]? with
  | some (.transInner m) => m
  | _ => []

/-- Read the followed-transitions cell. -/
def Heap.readFol (h : Heap) (r : Nat) : List ((Nat × Nat) × Int) :=
  match h[r]? with
  | some (.folMap m) => m
  | _ => []

/-- A RunnableNFA object in the heap model: scalar slots by value,
collections by reference.  cacheGen is the `_cache.generatingStates`
slot; the other cache slots are neither read nor written by the accepts
pipeline and are omitted. -/
structure HNFA where
  mutableFlag : Bool
  alphaSet : Option SymbolGroup
  start : Nat
  statesRef : Nat
  namesRef : Nat
  acceptRef : Nat
  transRef : Nat
  curRef : Nat
  folRef : Nat
  remaining : List Char
  numRead : Int
  cacheGen : Option Nat
deriving DecidableEq

/-- The state set, read through the heap. -/
def HNFA.statesListH (A : HNFA) (h : Heap) : List Nat := h.readSet A.statesRef

/-- NFA.state in the heap model. -/
def HNFA.stateH (A : HNFA) (h : Heap) (s : Nat) : Nat :=
  if (A.statesListH h).contains s then s else 0

/-- NFA.transitionsFrom in the heap model. -/
def HNFA.transitionsFromH (A : HNFA) (h : Heap) (o : Nat) : List (Nat × SymbolGroup) :=
  match alookup (h.readOuter A.transRef) (A.stateH h o) with
  | some r => h.readInner r
  | none => []

/-- NFA.hasTransition in the heap model. -/
def HNFA.hasTransitionH (A : HNFA) (h : Heap) (o t : Nat) : Bool :=
  let o := A.stateH h o
  let t := A.stateH h t
  if o = 0 ∨ t = 0 then false
  else
    match alookup (h.readOuter A.transRef) o with
    | none => false
    | some r => (alookup (h.readInner r) t).isSome

/-- RunnableNFA.isRunning in the heap model. -/
def HNFA.isRunningH (A : HNFA) : Bool := A.numRead ≠ -1

/-- mutableCopy: the new object shares every reference of the receiver;
RunnableNFA of `_init` first allocates a fresh current set and followed
map, which the copying loop of NFA of `_init` then overwrites with the
receiver's references, so the two cells become garbage. -/
def hMutableCopy (A : HNFA) (h : Heap) : HNFA × Heap :=
  let h1 := (h.alloc (.natSet [])).1
  let h2 := (h1.alloc (.folMap [])).1
  ({ A with mutableFlag := true }, h2)

/-- mutable(true) of the source: the receiver itself when mutable, else a
mutable copy (the cache is carried in the record either way). -/
def mutableOrCopy (A : HNFA) (h : Heap) : HNFA × Heap :=
  if A.mutableFlag then (A, h) else hMutableCopy A h

/-- The final `if (!this._mutable) nfa.immutable()` of each method: restore
the immutable flag when the receiver was immutable. -/
def restoreMode (wasMutable : Bool) (X : HNFA) : HNFA :=
  if wasMutable then X else { X with mutableFlag := false }

/-- The epsilon closure in the heap model, mutating the current-set and
followed-map cells in place; the folds are the two for loops of the
source, threading the heap. -/
def hFollowEmpty : Nat → HNFA → Heap → Option Nat → Heap
  | 0, _, h, _ => h
  | fuel + 1, A, h, onlyFrom =>
    if ¬ (A.isRunningH && A.mutableFlag) then h
    else
      let origins := match onlyFrom with
        | none => h.readSet A.curRef
        | some s => [s]
      origins.foldl
        (fun hAcc o =>
          (A.transitionsFromH hAcc o).foldl
            (fun hAcc2 tg =>
              if tg.2.has none then
                let h2 := hAcc2.write A.curRef
                  (.natSet (addIfAbsent (hAcc2.readSet A.curRef) tg.1))
                let h3 := h2.write A.folRef
                  (.folMap (aset (h2.readFol A.folRef) (o, tg.1) A.numRead))
                hFollowEmpty fuel A h3 (some tg.1)
              else hAcc2)
            hAcc)
        h

/-- explore in the heap model, mutating the visited cell in place; the
folds are the two for loops of the source, threading the heap. -/
def hExploreFuel (A : HNFA) : Bool → Nat → Heap → Nat → Nat → Heap
  | _, 0, h, _, _ => h
  | bw, fuel + 1, h, st, vref =>
    if (h.readSet vref).contains st then h
    else
      let h1 := h.write vref (.natSet (h.readSet vref ++ [st]))
      if bw then
        (A.statesListH h1).foldl
          (fun hAcc o =>
            if A.hasTransitionH hAcc o st then hExploreFuel A true fuel hAcc o vref
            else hAcc)
          h1
      else
        (A.transitionsFromH h1 st).foldl
          (fun hAcc tg => hExploreFuel A false fuel hAcc tg.1 vref)
          h1

/-- The generatingStates getter in the heap model: return the cached cell
if present, else allocate a fresh visited cell, explore backwards from
every accept state into it, and store it in the cache slot. -/
def hGenerating (fuel : Nat) (A : HNFA) (h : Heap) : List Nat × HNFA × Heap :=
  match A.cacheGen with
  | some r => (h.readSet r, A, h)
  | none =>
    let p := h.alloc (.natSet [])
    let h2 := (h.readSet A.acceptRef).foldl
      (fun hAcc st => hExploreFuel A true fuel hAcc st p.2) p.1
    (h2.readSet p.2, { A with cacheGen := some p.2 }, h2)

/-- RunnableNFA.result in the heap model. -/
def hResult (fuel : Nat) (A : HNFA) (h : Heap) : Int × HNFA × Heap :=
  if ¬ A.isRunningH then (0, A, h)
  else if shareAny [h.readSet A.curRef, h.readSet A.acceptRef] then (1, A, h)
  else
    let g := hGenerating fuel A h
    if shareAny [g.2.2.readSet A.curRef, g.1] then (0, g.2.1, g.2.2)
    else (-1, g.2.1, g.2.2)

/-- RunnableNFA.reset in the heap model: fresh followed-map and current
cells, then the epsilon closure. -/
def hReset (fuel : Nat) (A : HNFA) (h : Heap) (input : Option (List Char)) :
    HNFA × Heap :=
  let AH := mutableOrCopy A h
  let A1 := { AH.1 with numRead := 0, remaining := input.getD AH.1.remaining }
  let p1 := AH.2.alloc (.folMap [])
  let p2 := p1.1.alloc (.natSet [A1.start])
  let A2 := { A1 with folRef := p1.2, curRef := p2.2 }
  (restoreMode A.mutableFlag A2, hFollowEmpty fuel A2 p2.1 none)

/-- RunnableNFA.step in the heap model: consume one symbol, collect the
successor states into a freshly allocated set, record the followed
transitions in the followed-map cell, rebind the current reference to the
fresh set, and close under empty transitions. -/
def hStep (fuel : Nat) (A : HNFA) (h : Heap) : HNFA × Heap :=
  if ¬ A.isRunningH then hReset fuel A h none
  else
    match A.remaining with
    | [] => (A, h)
    | c :: rest =>
      let AH := mutableOrCopy A h
      let A1 := { AH.1 with remaining := rest, numRead := AH.1.numRead + 1 }
      let p := AH.2.alloc (.natSet [])
      let h3 := (p.1.readSet A1.curRef).foldl
        (fun hAcc o =>
          (A1.transitionsFromH hAcc o).foldl
            (fun hAcc2 tg =>
              if tg.2.has (some c) then
                let hB := hAcc2.write p.2 (.natSet (addIfAbsent (hAcc2.readSet p.2) tg.1))
                hB.write A1.folRef (.folMap (aset (hB.readFol A1.folRef) (o, tg.1) A1.numRead))
              else hAcc2)
            hAcc)
        p.1
      let A2 := { A1 with curRef := p.2 }
      (restoreMode A.mutableFlag A2, hFollowEmpty fuel A2 h3 none)

/-- The while loop of run in the heap model; the short-circuit of the
condition means result is only read when input remains. -/
def hRunLoop (fuel : Nat) : Nat → HNFA → Heap → HNFA × Heap
  | 0, A, h => (A, h)
  | b + 1, A, h =>
    if A.remaining = [] then (A, h)
    else
      let r := hResult fuel A h
      if r.1 ≠ -1 then
        let s := hStep fuel r.2.1 r.2.2
        hRunLoop fuel b s.1 s.2
      else (r.2.1, r.2.2)

/-- RunnableNFA.run in the heap model. -/
def hRun (fuel : Nat) (A : HNFA) (h : Heap) (input : List Char) : HNFA × Heap :=
  let r := hResult fuel A h
  if r.1 = -1 then (r.2.1, r.2.2)
  else
    let AH := mutableOrCopy r.2.1 r.2.2
    let A2 := if input ≠ [] then { AH.1 with remaining := AH.1.remaining ++ input } else AH.1
    let SR := if ¬ A2.isRunningH then hReset fuel A2 AH.2 none else (A2, AH.2)
    let L := hRunLoop fuel SR.1.remaining.length SR.1 SR.2
    (restoreMode r.2.1.mutableFlag L.1, L.2)

/-- RunnableNFA.accepts in the heap model: run a mutable copy, which
shares every collection of the receiver by reference, and compare the
final result with 1. -/
def hAccepts (fuel : Nat) (A : HNFA) (h : Heap) (input : List Char) : Bool × Heap :=
  let C := hMutableCopy A h
  let R := hReset fuel C.1 C.2 (some input)
  let U := hRun fuel R.1 R.2 []
  let res := hResult fuel U.1 U.2
  (res.1 = 1, res.2.2)

/-- The observable fields of an automaton object, dereferenced through
the heap: states, names, start, accept set, transitions, alphabet,
running status, current states, and remaining input. -/
def observe (A : HNFA) (h : Heap) :
    List Nat × List (Nat × String) × Nat × List Nat ×
    List (Nat × List (Nat × SymbolGroup)) × Option SymbolGroup × Bool ×
    List Nat × List Char :=
  (h.readSet A.statesRef, h.readNames A.namesRef, A.start, h.readSet A.acceptRef,
   (h.readOuter A.transRef).map (fun p => (p.1, h.readInner p.2)),
   A.alphaSet, A.isRunningH, h.readSet A.curRef, A.remaining)

/-- Well-formedness of the references of an object: every collection it
can reach lives in the heap. -/
def ValidRefs (A : HNFA) (h : Heap) : Prop :=
  A.statesRef < h.length ∧ A.namesRef < h.length ∧ A.acceptRef < h.length ∧
  A.transRef < h.length ∧ A.curRef < h.length ∧ A.folRef < h.length ∧
  ∀ p ∈ h.readOuter A.transRef, p.2 < h.length

instance (A : HNFA) (h : Heap) : Decidable (ValidRefs A h) := by
  unfold ValidRefs; infer_instance

/-- The frame relation: the heap has only grown, and every cell below the
bound n (which is itself within the first heap) is unchanged. -/
def FramedFrom (n : Nat) (h h2 : Heap) : Prop :=
  n ≤ h.length ∧ h.length ≤ h2.length ∧ ∀ i, i < n → h2[i]? = h[i]?

/-! ## Concrete automata used in the theorems and witnesses -/

/-- A symbol group containing only the empty symbol. -/
def epsGroup : SymbolGroup := ⟨[none]⟩

/-- A mutable running automaton with a single state that has an
empty-symbol transition to itself, the simplest cyclic epsilon graph. -/
def cycNFA : NFA :=
  { nextID := 2
    alphaSet := none
    statesL := [1]
    start := 1
    names := [(1, "s")]
    accept := []
    trans := [(1, [(1, epsGroup)])]
    mutableFlag := true
    current := [1]
    remaining := []
    numRead := 0
    followed := [] }

/-- cycNFA after the closure has recorded the followed self-loop once:
the fixed point of the body of the epsilon-closure recursion. -/
def cycNFA2 : NFA := { cycNFA with followed := [((1, 1), 0)] }

/-- Definition of the C6 counterexample: two states, the accept state
reached on the space symbol. -/
def dSpace : IDefinition := ⟨2, ["s0", "s1"], [1], [[(1, " ")], []], none⟩

/-- Definition of a single-state automaton with no accept states. -/
def dOne : IDefinition := ⟨1, ["only"], [], [[]], none⟩

/-- Definition of a single-state automaton whose only state accepts. -/
def dOneAcc : IDefinition := ⟨1, ["only"], [0], [[]], none⟩

/-- Definition with no states at all (start is then the sentinel 0). -/
def dEmpty : IDefinition := ⟨0, [], [], [], none⟩

/-- Definition of the C7 counterexample: explicit alphabet a, b; no
accept states; edges 1 to 2 on a and 2 to 1 on b. -/
def dCmpl : IDefinition :=
  ⟨2, ["A", "B"], [], [[(1, "a")], [(0, "b")]], some "a b"⟩

/-- A small immutable automaton: states 1 and 2, start 1, an a-edge from
1 to 2, state 2 accepting, not running. -/
def exNFA : NFA :=
  { nextID := 3
    alphaSet := none
    statesL := [1, 2]
    start := 1
    names := [(1, "q0"), (2, "q1")]
    accept := [2]
    trans := [(1, [(2, ⟨[some 'a']⟩)]), (2, [])]
    mutableFlag := false
    current := []
    remaining := []
    numRead := -1
    followed := [] }

/-- exNFA in a running configuration with current state 1. -/
def exRunNFA : NFA :=
  { exNFA with mutableFlag := true, current := [1], remaining := ['a'], numRead := 0 }

/-- A heap holding the collections of exNFA for the heap model. -/
def exHeap : Heap :=
  [.natSet [1, 2], .nameMap [(1, "q0"), (2, "q1")], .natSet [2],
   .transOuter [(1, 4), (2, 5)], .transInner [(2, ⟨[some 'a']⟩)], .transInner [],
   .natSet [], .folMap []]

/-- The heap-model object for exNFA over exHeap. -/
def exHNFA : HNFA :=
  { mutableFlag := false
    alphaSet := none
    start := 1
    statesRef := 0
    namesRef := 1
    acceptRef := 2
    transRef := 3
    curRef := 6
    folRef := 7
    remaining := []
    numRead := -1
    cacheGen := none }

/-! ## Theorems for the claims (with shared helper lemmas first) -/

/-- C9: the claim states that SymbolGroup.toString collapses a contiguous
run of 3 or more symbols to x-y exactly when that is strictly shorter,
and in particular that new SymbolGroup("a-c").toString() equals "a-c".
The code disagrees: CharRange.size is the difference of the end and start
code points (one less than the number of characters), so for the
three-character run a, b, c the comparison 3 < 2 + 1 fails and the
symbols are listed individually, "a b c", although "a-c" would be
strictly shorter.  The membership scenario parts of the claim do hold:
the group contains b and does not contain d. -/
theorem c9_toString_run_of_three_not_collapsed :
    (SymbolGroup.ofString? "a-c").map
        (fun g => (g.toStr " " false, g.has (some 'b'), g.has (some 'd'))) =
      some ("a b c", true, false) := by decide

/-- C8: the claim states that every id referenced by start, accept or the
transition map is 0 or a member of the state set in every reachable
automaton.  The code disagrees: removeState deletes the state and its
transitions but leaves the accept set and the start field untouched, so
removing the accepting start state of a one-state automaton leaves both
referencing the removed id 1 while the state set is empty. -/
theorem c8_removeState_leaves_dangling_accept_and_start :
    (initNFA 1 dOneAcc false).map (fun A =>
        let A2 := (A.removeState 1).1
        (A2.statesL, A2.accept.contains 1, A2.start)) =
      some ([], true, 1) := by decide

/-- C6: the claim states that parsing toDefinition(A) yields an automaton
accepting the same strings, and that re-parsing each serialized symbol
string reproduces an equal symbol set.  The code disagrees on the space
symbol: the group containing the space serializes to the open-box
character, but the constructor takes any single-character input
literally, so the reparsed group contains the open-box character instead
of the space; the round-tripped automaton no longer accepts the
one-space input that the original accepts. -/
theorem c6_roundtrip_fails_on_space_symbol :
    ((initNFA 1 dSpace false).bind fun A =>
      (A.accepts 20 [' ']).bind fun b1 =>
        (initNFA A.nextID A.toDefinition false).bind fun A2 =>
          (A2.accepts 20 [' ']).map fun b2 => (b1, b2)) = some (true, false) ∧
    (initNFA 1 dSpace false).map
        (fun A => ((A.symbols 1 2).syms, A.toDefinition.dtransitions)) =
      some ([some ' '], [[(1, "␣")], []]) ∧
    ((initNFA 1 dSpace false).bind fun A =>
      (initNFA A.nextID A.toDefinition false).map fun A2 => (A2.symbols 3 4).syms) =
      some [some '␣'] := by
  refine ⟨by decide, by decide, by decide⟩

/-- C7: the claim states that complete adds, for every state, a
transition covering every uncovered alphabet symbol, and that afterwards
every state has an outgoing edge for every alphabet symbol.  The code
disagrees when a state already has a transition to the chosen
non-generating state: setTransition replaces the symbol group of an
existing edge, so the symbols of the old edge that are not among the
uncovered ones are lost.  On dCmpl (alphabet a, b; both states
non-generating, state 2 chosen) the a-edge from 1 to 2 is replaced by a
b-edge, and afterwards state 1 has no outgoing edge on a.  (The
subtract method is modelled from the spec, see SymbolGroup.subtract.) -/
theorem c7_complete_loses_alphabet_symbol :
    ((initNFA 1 dCmpl false).bind fun A =>
      (A.complete 20).bind fun r =>
        r.1.alphabet.map fun alpha =>
          ((A.symbols 1 2).has (some 'a'), alpha.has (some 'a'),
           (r.1.transitionsFrom 1).map fun p => p.2.has (some 'a'))) =
      some (true, true, [false]) := by decide

/-- C2 counterexample: the claim states that every listed public mutator
invoked with a non-member id is a no-op returning the automaton
unchanged.  setStart is not: the invalid id is coerced to the sentinel 0,
isStart(0) is false, and the start field is set to 0, so on a one-state
automaton with start 1 the call setStart(5) changes the start to 0 and
returns a new value. -/
theorem c2_counterexample_setStart_invalid_id_changes_start :
    (initNFA 1 dOne false).map (fun A =>
        (A.statesL.contains 5, A.start, (A.setStart 5).1.start, (A.setStart 5).2)) =
      some (false, 1, 0, false) := by decide

/-- C3 counterexample: the claim states that every mutator call that
changes nothing observable returns the very same reference; in
particular setStart of the current start.  On an immutable automaton
whose start is the sentinel 0 (here: built from a definition with no
states), setStart(0) changes nothing observable, yet isStart(0) is false,
so the call runs the mutate path and returns a fresh copy: the returned
value equals the receiver but the same-reference flag is false. -/
theorem c3_counterexample_noop_setStart_returns_fresh_reference :
    (initNFA 1 dEmpty false).map (fun A =>
        (A.start, decide ((A.setStart 0).1 = A), (A.setStart 0).2)) =
      some (0, true, false) := by decide

/-- Helper for C1: on the epsilon self-loop the body of the closure is at
a fixed point (the target is already current and the followed entry is
already recorded), so every recursion level reproduces the same call and
the recursion exhausts any depth bound. -/
theorem followEmpty_cyc2_diverges (fuel : Nat) :
    followEmptyFuel fuel cycNFA2 (some 1) = none := by
  induction fuel with
  | zero => rfl
  | succ f ih => exact ih

/-- C1: the claim states that the epsilon-closure computation terminates
on every automaton, including ones whose empty-symbol transitions form a
cycle, using a visited set.  The code disagrees: RunnableNFA of
`_followEmptyTransitions` has no visited set and recurses
unconditionally on every empty-symbol edge, so on a running automaton
whose single state has an empty-symbol self-loop the recursion never
finishes: for every recursion depth bound the fuel model returns none. -/
theorem c1_followEmptyTransitions_diverges_on_epsilon_cycle (fuel : Nat) :
    followEmptyFuel fuel cycNFA none = none := by
  cases fuel with
  | zero => rfl
  | succ f => exact followEmpty_cyc2_diverges f

/-- Coercing the sentinel always yields the sentinel. -/
theorem state_zero (A : NFA) : A.state 0 = 0 := by
  unfold NFA.state; split <;> rfl

/-- Coercion of a member id is the identity. -/
theorem state_mem (A : NFA) (s : Nat) (h : A.statesL.contains s = true) :
    A.state s = s := by
  unfold NFA.state; rw [if_pos h]

/-- Coercion of a non-member id is the sentinel. -/
theorem state_nonmem (A : NFA) (s : Nat) (h : A.statesL.contains s = false) :
    A.state s = 0 := by
  unfold NFA.state
  rw [if_neg (fun hc => Bool.false_ne_true (h ▸ hc))]

/-- Coercion is idempotent. -/
theorem state_idem (A : NFA) (s : Nat) : A.state (A.state s) = A.state s := by
  by_cases h : A.statesL.contains s = true
  · rw [state_mem A s h]
    exact state_mem A s h
  · rw [state_nonmem A s (Bool.eq_false_iff.mpr h), state_zero]

/-- C2 amended: with a non-member id, setAccept, setName, removeState,
and removeTransition and setTransition on either side are no-ops
returning the receiver itself, and none can throw (all the modelled
paths are total); setStart, however, treats the non-member id as the
sentinel and sets the start state to 0 rather than leaving the
automaton unchanged. -/
theorem c2_amended_invalid_id_mutators (A : NFA) (s o : Nat) (b : Bool)
    (nm : String) (inp : SGInput) (h : A.statesL.contains s = false) :
    A.setAccept s b = (A, true) ∧
    A.setName s nm = (A, true) ∧
    A.removeState s = (A, true) ∧
    A.removeTransition s o = (A, true) ∧
    A.removeTransition o s = (A, true) ∧
    A.setTransitionCore s o inp = some (A, true) ∧
    A.setTransitionCore o s inp = some (A, true) ∧
    A.setStart s = ({ A with start := 0 }, A.mutableFlag) := by
  have hs : A.state s = 0 := state_nonmem A s h
  refine ⟨?_, ?_, ?_, ?_, ?_, ?_, ?_, ?_⟩
  · unfold NFA.setAccept
    rw [hs, if_pos (Or.inl rfl)]
  · unfold NFA.setName
    rw [hs, if_pos (Or.inl rfl)]
  · unfold NFA.removeState
    rw [hs, if_pos rfl]
  · unfold NFA.removeTransition
    rw [hs]
    rw [if_pos (by unfold NFA.hasTransition; rw [state_zero, state_idem]; simp)]
  · unfold NFA.removeTransition
    rw [hs]
    rw [if_pos (by unfold NFA.hasTransition; rw [state_zero, state_idem]; simp)]
  · unfold NFA.setTransitionCore
    rw [hs, if_pos (Or.inl rfl)]
  · unfold NFA.setTransitionCore
    rw [hs, if_pos (Or.inr rfl)]
  · unfold NFA.setStart
    rw [hs]
    rw [if_neg (by unfold NFA.isStart; rw [state_zero]; simp)]

/-- Witness for C2 amended at a concrete input: id 5 is not a state of
exNFA. -/
theorem c2_amended_witness :
    exNFA.statesL.contains 5 = false ∧
    (exNFA.setAccept 5 true = (exNFA, true) ∧
     exNFA.setName 5 "x" = (exNFA, true) ∧
     exNFA.removeState 5 = (exNFA, true) ∧
     exNFA.removeTransition 5 1 = (exNFA, true) ∧
     exNFA.removeTransition 1 5 = (exNFA, true) ∧
     exNFA.setTransitionCore 5 1 .nothing = some (exNFA, true) ∧
     exNFA.setTransitionCore 1 5 .nothing = some (exNFA, true) ∧
     exNFA.setStart 5 = ({ exNFA with start := 0 }, exNFA.mutableFlag)) :=
  ⟨by decide, c2_amended_invalid_id_mutators exNFA 5 1 true "x" .nothing (by decide)⟩

/-- C3 amended: a mutator call that changes nothing observable returns
the receiver itself for setAccept of the current accept flag, setName of
the current name, setStart of a start state that is a member (the
coercion makes setStart of a sentinel start take the mutate path and,
in immutable mode, return a fresh copy, which is the counterexample),
and setTransition of a group equal to the existing one, unless the
automaton is running, the origin is current and the group contains the
empty symbol (in which case the override of RunnableNFA makes a copy to
re-run the closure). -/
theorem c3_amended_noop_identity (A : NFA) (s o t : Nat) (fuel : Nat)
    (hstart : A.statesL.contains A.start = true) (hs0 : A.start ≠ 0)
    (hot : A.hasTransition o t = true)
    (hne : ¬(A.isRunning = true ∧ A.isCurrentState o = true ∧
             (A.symbols o t).has none = true)) :
    A.setAccept s (A.isAccept s) = (A, true) ∧
    A.setName s (A.name s) = (A, true) ∧
    A.setStart A.start = (A, true) ∧
    A.setTransitionR fuel o t (.grp (A.symbols o t)) = some (A, true) := by
  have hidem : ∀ x, A.state (A.state x) = A.state x := state_idem A
  refine ⟨?_, ?_, ?_, ?_⟩
  · have hia : A.isAccept (A.state s) = A.isAccept s := by
      unfold NFA.isAccept; rw [hidem]
    unfold NFA.setAccept
    rw [if_pos (Or.inr hia)]
  · unfold NFA.setName
    by_cases hs : A.statesL.contains s = true
    · rw [state_mem A s hs, if_pos (Or.inr rfl)]
    · rw [state_nonmem A s (by simpa using hs), if_pos (Or.inl rfl)]
  · have hss : A.state A.start = A.start := state_mem A A.start hstart
    have hcond : A.isStart (A.state A.start) = true := by
      unfold NFA.isStart
      rw [hidem A.start, hss]
      simp [hs0]
    unfold NFA.setStart
    rw [if_pos hcond]
  · have hcoerce : A.hasTransition (A.state o) (A.state t) = A.hasTransition o t := by
      unfold NFA.hasTransition
      simp only [hidem]
    have hsym : A.symbols (A.state o) (A.state t) = A.symbols o t := by
      unfold NFA.symbols
      simp only [hidem]
    have ho : ¬(A.state o = 0 ∨ A.state t = 0) := by
      intro h1
      unfold NFA.hasTransition at hot
      rw [if_pos h1] at hot
      exact Bool.false_ne_true hot
    have hcore : A.setTransitionCore o t (.grp (A.symbols o t)) = some (A, true) := by
      unfold NFA.setTransitionCore
      rw [if_neg ho]
      simp only [SymbolGroup.ofInput?, Option.some_bind]
      rw [if_pos ⟨by rw [hcoerce]; exact hot,
                  by rw [hsym]; simp [SymbolGroup.equals]⟩]
    unfold NFA.setTransitionR
    by_cases hrun : (A.isRunning && A.isCurrentState o) = true
    · rw [if_pos hrun]
      have hno : (A.symbols o t).has none = false := by
        rcases Bool.and_eq_true _ _ |>.mp hrun with ⟨h1, h2⟩
        cases hh : (A.symbols o t).has none
        · rfl
        · exact absurd ⟨h1, h2, hh⟩ hne
      simp only [SymbolGroup.ofInput?, Option.some_bind]
      rw [if_neg (by simp [hno])]
      exact hcore
    · rw [if_neg hrun]
      exact hcore

/-- Invariant preservation through a left fold. -/
theorem foldlInv {α β : Type} (P : β → Prop) (f : β → α → β) :
    ∀ (l : List α) (b : β), P b → (∀ b2 a, a ∈ l → P b2 → P (f b2 a)) →
      P (l.foldl f b)
  | [], _, hb, _ => hb
  | a :: l, b, hb, hstep =>
    foldlInv P f l (f b a) (hstep b a (by simp) hb)
      (fun b2 x hx h2 => hstep b2 x (by simp [hx]) h2)

/-- The inner walk of shareAny: it signals a repeat exactly when the
walked collection together with the union has one, and otherwise returns
their concatenation. -/
theorem shareAnyScan_spec {α : Type} [DecidableEq α] :
    ∀ (xs union : List α), union.Nodup →
      (shareAnyScan union xs = none ∧ ¬(union ++ xs).Nodup) ∨
      (shareAnyScan union xs = some (union ++ xs) ∧ (union ++ xs).Nodup) := by
  intro xs
  induction xs with
  | nil =>
    intro union hu
    right
    simpa [shareAnyScan] using hu
  | cons x xs ih =>
    intro union hu
    by_cases hx : union.contains x = true
    · left
      have hxm : x ∈ union := by simpa using hx
      refine ⟨?_, ?_⟩
      · show shareAnyScan union (x :: xs) = none
        simp only [shareAnyScan]
        rw [if_pos hx]
      · rw [List.nodup_append]
        rintro ⟨-, -, hd⟩
        exact hd hxm (by simp)
    · have hxm : x ∉ union := by simpa using hx
      have hu2 : (union ++ [x]).Nodup := by
        rw [List.nodup_append]
        refine ⟨hu, List.nodup_singleton x, ?_⟩
        intro a ha hb
        rw [List.mem_singleton] at hb
        exact hxm (hb ▸ ha)
      have heq : (union ++ [x]) ++ xs = union ++ x :: xs := by
        rw [List.append_assoc, List.singleton_append]
      have hstep : shareAnyScan union (x :: xs) = shareAnyScan (union ++ [x]) xs := by
        simp only [shareAnyScan]
        rw [if_neg hx]
      rcases ih (union ++ [x]) hu2 with ⟨h1, h2⟩ | ⟨h1, h2⟩
      · left
        refine ⟨by rw [hstep, h1], ?_⟩
        rw [← heq]; exact h2
      · right
        refine ⟨by rw [hstep, h1, heq], ?_⟩
        rw [← heq]; exact h2

/-- The outer walk of shareAny is false exactly when the union together
with all remaining collections is duplicate-free. -/
theorem shareAnyGo_eq_false_iff {α : Type} [DecidableEq α] :
    ∀ (sets : List (List α)) (union : List α), union.Nodup →
      (shareAnyGo union sets = false ↔ (union ++ sets.flatten).Nodup) := by
  intro sets
  induction sets with
  | nil =>
    intro union hu
    simpa [shareAnyGo] using hu
  | cons s rest ih =>
    intro union hu
    rcases shareAnyScan_spec s union hu with ⟨h1, h2⟩ | ⟨h1, h2⟩
    · rw [show shareAnyGo union (s :: rest) = true by simp [shareAnyGo, h1]]
      simp only [List.flatten_cons]
      constructor
      · intro hfalse; exact absurd hfalse (by simp)
      · intro hnd
        exfalso
        apply h2
        have : ((union ++ s) ++ rest.flatten).Nodup := by
          rw [List.append_assoc]; exact hnd
        exact (List.nodup_append.mp this).1
    · rw [show shareAnyGo union (s :: rest) = shareAnyGo (union ++ s) rest by
        simp [shareAnyGo, h1]]
      rw [ih (union ++ s) h2]
      simp [List.append_assoc]

/-- shareAny is false exactly when no element repeats across the
collections. -/
theorem shareAny_eq_false_iff {α : Type} [DecidableEq α] (sets : List (List α)) :
    shareAny sets = false ↔ sets.flatten.Nodup := by
  simpa [shareAny] using shareAnyGo_eq_false_iff sets [] List.nodup_nil

/-- On two duplicate-free collections, shareAny is exactly nonempty
intersection. -/
theorem shareAny_pair_true_iff {α : Type} [DecidableEq α] (s t : List α)
    (hs : s.Nodup) (ht : t.Nodup) :
    shareAny [s, t] = true ↔ ∃ x, x ∈ s ∧ x ∈ t := by
  have h := shareAny_eq_false_iff [s, t]
  have hflat : ([s, t] : List (List α)).flatten = s ++ t := by simp
  rw [hflat] at h
  constructor
  · intro htrue
    by_contra hno
    push_neg at hno
    have hnd : (s ++ t).Nodup := by
      rw [List.nodup_append]
      exact ⟨hs, ht, fun a ha hb => hno a ha hb⟩
    rw [← h] at hnd
    rw [htrue] at hnd
    simp at hnd
  · rintro ⟨x, hx1, hx2⟩
    cases hsa : shareAny [s, t] with
    | true => rfl
    | false =>
      exfalso
      have hnd := h.mp hsa
      exact (List.nodup_append.mp hnd).2.2 hx1 hx2

/-- explore keeps the visited set duplicate-free (the guard skips every
state already visited). -/
theorem exploreFuel_nodup (A : NFA) :
    ∀ (fuel : Nat) (bw : Bool) (st : Nat) (visited v2 : List Nat),
      visited.Nodup → exploreFuel A bw fuel st visited = some v2 → v2.Nodup := by
  intro fuel
  induction fuel with
  | zero =>
    intro bw st visited v2 _ h
    exact absurd h (by simp [exploreFuel])
  | succ f ih =>
    intro bw st visited v2 hv h
    simp only [exploreFuel] at h
    by_cases hc : visited.contains st = true
    · rw [if_pos hc] at h
      cases h
      exact hv
    · rw [if_neg hc] at h
      have hv2 : (visited ++ [st]).Nodup := by
        rw [List.nodup_append]
        refine ⟨hv, List.nodup_singleton st, ?_⟩
        intro a ha hb
        rw [List.mem_singleton] at hb
        subst hb
        exact hc (by simpa using ha)
      set P : Option (List Nat) → Prop := fun acc => ∀ w, acc = some w → w.Nodup
        with hP
      have hbase : P (some (visited ++ [st])) := by
        intro w hw; cases hw; exact hv2
      cases bw with
      | true =>
        rw [if_pos rfl] at h
        have hfold := foldlInv P
          (fun acc o => acc.bind fun v =>
            if A.hasTransition o st = true then exploreFuel A true f o v else some v)
          A.statesL (some (visited ++ [st])) hbase ?_
        · exact hfold v2 h
        · intro acc o _ hacc w hw
          cases acc with
          | none => exact Option.noConfusion hw
          | some v =>
            have hw2 : (if A.hasTransition o st = true then exploreFuel A true f o v
                else some v) = some w := hw
            by_cases hh : A.hasTransition o st = true
            · rw [if_pos hh] at hw2
              exact ih true o v w (hacc v rfl) hw2
            · rw [if_neg hh] at hw2
              exact (Option.some.inj hw2) ▸ hacc v rfl
      | false =>
        rw [if_neg (by simp)] at h
        have hfold := foldlInv P
          (fun acc tg => acc.bind fun v => exploreFuel A false f tg.1 v)
          (A.transitionsFrom st) (some (visited ++ [st])) hbase ?_
        · exact hfold v2 h
        · intro acc tg _ hacc w hw
          cases acc with
          | none => exact Option.noConfusion hw
          | some v =>
            have hw2 : exploreFuel A false f tg.1 v = some w := hw
            exact ih false tg.1 v w (hacc v rfl) hw2

/-- The generating-states set the code computes is duplicate-free. -/
theorem generatingStates_nodup (A : NFA) : A.generatingStates.Nodup := by
  unfold NFA.generatingStates
  apply foldlInv (fun v : List Nat => v.Nodup)
  · exact List.nodup_nil
  · intro v st _ hv
    cases hopt : exploreFuel A true (A.statesL.length + 2) st v with
    | none => simpa [hopt] using hv
    | some w =>
      have := exploreFuel_nodup A _ true st v w hv hopt
      simpa [hopt] using this

/-- C4: result is 0 when not running; while running it is 1 exactly when
the current set meets the accept set, else 0 exactly when the current set
meets the generating states, else -1. -/
theorem c4_result_ternary (A : NFA) (hc : A.current.Nodup) (ha : A.accept.Nodup) :
    (A.isRunning = false → A.result = 0) ∧
    (A.isRunning = true →
      ((A.result = 1 ↔ ∃ s, s ∈ A.current ∧ s ∈ A.accept) ∧
       (A.result = 0 ↔ ¬(∃ s, s ∈ A.current ∧ s ∈ A.accept) ∧
          (∃ s, s ∈ A.current ∧ s ∈ A.generatingStates)) ∧
       (A.result = -1 ↔ ¬(∃ s, s ∈ A.current ∧ s ∈ A.accept) ∧
          ¬(∃ s, s ∈ A.current ∧ s ∈ A.generatingStates)))) := by
  have hgnd := generatingStates_nodup A
  have hacc := shareAny_pair_true_iff A.current A.accept hc ha
  have hgen := shareAny_pair_true_iff A.current A.generatingStates hc hgnd
  unfold NFA.result
  constructor
  · intro hnr
    rw [if_pos (by simp [NFA.isRunning] at hnr ⊢; exact hnr)]
  · intro hr
    rw [if_neg (by simp [hr])]
    by_cases h1 : shareAny [A.current, A.accept] = true
    · rw [if_pos h1]
      have he := hacc.mp h1
      refine ⟨iff_of_true rfl he, ?_, ?_⟩
      · constructor
        · intro h10; exact absurd h10 (by decide)
        · rintro ⟨hno, -⟩; exact absurd he hno
      · constructor
        · intro hm1; exact absurd hm1 (by decide)
        · rintro ⟨hno, -⟩; exact absurd he hno
    · rw [if_neg h1]
      have hne : ¬∃ s, s ∈ A.current ∧ s ∈ A.accept := fun hex =>
        h1 (hacc.mpr hex)
      by_cases h2 : shareAny [A.current, A.generatingStates] = true
      · rw [if_pos h2]
        have he2 := hgen.mp h2
        refine ⟨?_, iff_of_true rfl ⟨hne, he2⟩, ?_⟩
        · constructor
          · intro h01; exact absurd h01 (by decide)
          · intro hex; exact absurd hex hne
        · constructor
          · intro h0m; exact absurd h0m (by decide)
          · rintro ⟨-, hno⟩; exact absurd he2 hno
      · rw [if_neg h2]
        have hne2 : ¬∃ s, s ∈ A.current ∧ s ∈ A.generatingStates := fun hex =>
          h2 (hgen.mpr hex)
        refine ⟨?_, ?_, iff_of_true rfl ⟨hne, hne2⟩⟩
        · constructor
          · intro hm1; exact absurd hm1 (by decide)
          · intro hex; exact absurd hex hne
        · constructor
          · intro hm0; exact absurd hm0 (by decide)
          · rintro ⟨-, hex⟩; exact absurd hex hne2

/-- Witness for C4 at a concrete input: the running exRunNFA. -/
theorem c4_result_ternary_witness :
    exRunNFA.current.Nodup ∧ exRunNFA.accept.Nodup ∧
    ((exRunNFA.isRunning = false → exRunNFA.result = 0) ∧
     (exRunNFA.isRunning = true →
      ((exRunNFA.result = 1 ↔ ∃ s, s ∈ exRunNFA.current ∧ s ∈ exRunNFA.accept) ∧
       (exRunNFA.result = 0 ↔ ¬(∃ s, s ∈ exRunNFA.current ∧ s ∈ exRunNFA.accept) ∧
          (∃ s, s ∈ exRunNFA.current ∧ s ∈ exRunNFA.generatingStates)) ∧
       (exRunNFA.result = -1 ↔
          ¬(∃ s, s ∈ exRunNFA.current ∧ s ∈ exRunNFA.accept) ∧
          ¬(∃ s, s ∈ exRunNFA.current ∧ s ∈ exRunNFA.generatingStates))))) :=
  ⟨by decide, by decide, c4_result_ternary exRunNFA (by decide) (by decide)⟩

/-- C5: isDFA is true exactly when no state has an outgoing empty-symbol
transition and no two outgoing symbol groups of any state intersect. -/
theorem c5_isDFA_iff (A : NFA)
    (hg : ∀ o ∈ A.statesL, ∀ p ∈ A.transitionsFrom o, p.2.syms.Nodup) :
    A.isDFA = true ↔
      ((∀ o ∈ A.statesL, ∀ p ∈ A.transitionsFrom o, p.2.has none = false) ∧
       (∀ o ∈ A.statesL,
          ((A.transitionsFrom o).map Prod.snd).Pairwise
            (fun g g2 => ∀ x, x ∈ g.syms → x ∉ g2.syms))) := by
  have hpoint : ∀ o ∈ A.statesL,
      ((let ts := A.transitionsFrom o
        !(ts.any fun p => p.2.has none) && !(SymbolGroup.shareAnyG (ts.map Prod.snd))) = true ↔
       ((∀ p ∈ A.transitionsFrom o, p.2.has none = false) ∧
        ((A.transitionsFrom o).map Prod.snd).Pairwise
          (fun g g2 => ∀ x, x ∈ g.syms → x ∉ g2.syms))) := by
    intro o ho
    simp only [Bool.and_eq_true, Bool.not_eq_true']
    constructor
    · rintro ⟨hany, hshare⟩
      constructor
      · intro p hp
        by_contra hcon
        have : (A.transitionsFrom o).any (fun p => p.2.has none) = true :=
          List.any_eq_true.mpr ⟨p, hp, by simpa using hcon⟩
        rw [hany] at this
        exact Bool.false_ne_true this
      · have hnd := (shareAny_eq_false_iff
          (((A.transitionsFrom o).map Prod.snd).map SymbolGroup.syms)).mp hshare
        have hjoin := List.nodup_flatten.mp hnd
        have hthis := hjoin.2
        rw [List.pairwise_map] at hthis
        rw [List.pairwise_map] at hthis ⊢
        refine hthis.imp ?_
        intro p q hd x hx
        exact hd hx
    · rintro ⟨hnone, hpw⟩
      constructor
      · cases hany : (A.transitionsFrom o).any (fun p => p.2.has none) with
        | false => rfl
        | true =>
          exfalso
          rcases List.any_eq_true.mp hany with ⟨p, hp, hpt⟩
          rw [hnone p hp] at hpt
          exact Bool.false_ne_true hpt
      · apply (shareAny_eq_false_iff _).mpr
        apply List.nodup_flatten.mpr
        constructor
        · intro l hl
          rcases List.mem_map.mp hl with ⟨g, hg2, rfl⟩
          rcases List.mem_map.mp hg2 with ⟨p, hp, rfl⟩
          exact hg o ho p hp
        · rw [List.pairwise_map, List.pairwise_map]
          rw [List.pairwise_map] at hpw
          refine hpw.imp ?_
          intro p q hd x hx
          exact hd x hx
  unfold NFA.isDFA
  rw [List.all_eq_true]
  constructor
  · intro hall
    constructor
    · intro o ho
      exact ((hpoint o ho).mp (hall o ho)).1
    · intro o ho
      exact ((hpoint o ho).mp (hall o ho)).2
  · rintro ⟨h1, h2⟩ o ho
    exact (hpoint o ho).mpr ⟨h1 o ho, h2 o ho⟩

/-- Witness for C5 at a concrete input: exNFA, whose only group is
duplicate-free. -/
theorem c5_isDFA_iff_witness :
    (∀ o ∈ exNFA.statesL, ∀ p ∈ exNFA.transitionsFrom o, p.2.syms.Nodup) ∧
    (exNFA.isDFA = true ↔
      ((∀ o ∈ exNFA.statesL, ∀ p ∈ exNFA.transitionsFrom o, p.2.has none = false) ∧
       (∀ o ∈ exNFA.statesL,
          ((exNFA.transitionsFrom o).map Prod.snd).Pairwise
            (fun g g2 => ∀ x, x ∈ g.syms → x ∉ g2.syms)))) :=
  ⟨by decide, c5_isDFA_iff exNFA (by decide)⟩

/-! ## Frame lemmas for the heap model (claim C10) -/

/-- The frame bound survives into a framed heap. -/
theorem FramedFrom.le_len {n : Nat} {h h2 : Heap} (f : FramedFrom n h h2) :
    n ≤ h2.length :=
  le_trans f.1 f.2.1

theorem framedFrom_refl (n : Nat) (h : Heap) (hn : n ≤ h.length) :
    FramedFrom n h h :=
  ⟨hn, le_refl _, fun _ _ => rfl⟩

theorem framedFrom_trans {n : Nat} {h1 h2 h3 : Heap}
    (a : FramedFrom n h1 h2) (b : FramedFrom n h2 h3) : FramedFrom n h1 h3 :=
  ⟨a.1, le_trans a.2.1 b.2.1, fun i hi => (b.2.2 i hi).trans (a.2.2 i hi)⟩

/-- Allocation only appends, so every existing cell is unchanged. -/
theorem framedFrom_alloc (n : Nat) (h : Heap) (c : Cell) (hn : n ≤ h.length) :
    FramedFrom n h (h.alloc c).1 := by
  refine ⟨hn, by simp [Heap.alloc], fun i hi => ?_⟩
  exact List.getElem?_append_left (lt_of_lt_of_le hi hn)

/-- A write above the frame bound leaves every cell below it unchanged. -/
theorem framedFrom_write (n : Nat) (h : Heap) (r : Nat) (c : Cell)
    (hn : n ≤ h.length) (hr : n ≤ r) : FramedFrom n h (h.write r c) := by
  refine ⟨hn, by simp [Heap.write], fun i hi => ?_⟩
  exact List.getElem?_set_ne (by omega)

/-- The reference an allocation returns is at or above any frame bound
within the heap. -/
theorem alloc_ref_ge {n : Nat} (h : Heap) (c : Cell) (hn : n ≤ h.length) :
    n ≤ (h.alloc c).2 := hn

theorem hMutableCopy_frame (n : Nat) (A : HNFA) (h : Heap) (hn : n ≤ h.length) :
    FramedFrom n h (hMutableCopy A h).2 ∧
    (hMutableCopy A h).1 = { A with mutableFlag := true } := by
  refine ⟨?_, rfl⟩
  unfold hMutableCopy
  exact framedFrom_trans (framedFrom_alloc n h _ hn)
    (framedFrom_alloc n _ _ (framedFrom_alloc n h _ hn).le_len)

/-- mutable(true) frames the heap and leaves all reference slots and the
scalar input fields of the record unchanged. -/
theorem mutableOrCopy_frame (n : Nat) (A : HNFA) (h : Heap) (hn : n ≤ h.length) :
    FramedFrom n h (mutableOrCopy A h).2 ∧
    (mutableOrCopy A h).1.curRef = A.curRef ∧
    (mutableOrCopy A h).1.folRef = A.folRef ∧
    (mutableOrCopy A h).1.remaining = A.remaining ∧
    (mutableOrCopy A h).1.start = A.start := by
  unfold mutableOrCopy
  by_cases hm : A.mutableFlag = true
  · rw [if_pos hm]
    exact ⟨framedFrom_refl n h hn, rfl, rfl, rfl, rfl⟩
  · rw [if_neg hm]
    exact ⟨(hMutableCopy_frame n A h hn).1, rfl, rfl, rfl, rfl⟩

theorem restoreMode_curRef (b : Bool) (X : HNFA) :
    (restoreMode b X).curRef = X.curRef := by
  cases b <;> rfl

theorem restoreMode_folRef (b : Bool) (X : HNFA) :
    (restoreMode b X).folRef = X.folRef := by
  cases b <;> rfl

/-- The epsilon closure writes only through the current-set and
followed-map references. -/
theorem hFollowEmpty_frame (n : Nat) :
    ∀ (fuel : Nat) (A : HNFA) (h : Heap) (onlyFrom : Option Nat),
      n ≤ h.length → n ≤ A.curRef → n ≤ A.folRef →
      FramedFrom n h (hFollowEmpty fuel A h onlyFrom) := by
  intro fuel
  induction fuel with
  | zero => intro A h onlyFrom hn _ _; exact framedFrom_refl n h hn
  | succ f ih =>
    intro A h onlyFrom hn hcur hfol
    simp only [hFollowEmpty]
    by_cases hrm : ¬(A.isRunningH && A.mutableFlag) = true
    · rw [if_pos hrm]; exact framedFrom_refl n h hn
    · rw [if_neg hrm]
      apply foldlInv (fun h2 => FramedFrom n h h2)
      · exact framedFrom_refl n h hn
      · intro hAcc o _ hPrev
        apply foldlInv (fun h2 => FramedFrom n h h2)
        · exact hPrev
        · intro h2 tg _ hP2
          by_cases hg : tg.2.has none = true
          · rw [if_pos hg]
            have hw1 : FramedFrom n h (h2.write A.curRef
                (.natSet (addIfAbsent (h2.readSet A.curRef) tg.1))) :=
              framedFrom_trans hP2
                (framedFrom_write n h2 A.curRef _ hP2.le_len hcur)
            have hw2 : FramedFrom n h (((h2.write A.curRef
                (.natSet (addIfAbsent (h2.readSet A.curRef) tg.1)))).write A.folRef
                (.folMap (aset ((h2.write A.curRef
                  (.natSet (addIfAbsent (h2.readSet A.curRef) tg.1))).readFol A.folRef)
                  (o, tg.1) A.numRead))) :=
              framedFrom_trans hw1 (framedFrom_write n _ A.folRef _ hw1.le_len hfol)
            exact framedFrom_trans hw2 (ih A _ (some tg.1) hw2.le_len hcur hfol)
          · rw [if_neg hg]
            exact hP2

/-- Composition of a frame with the closure that follows it. -/
theorem framedFrom_then_followEmpty {n fuel : Nat} {h h2 : Heap} {A : HNFA}
    (hf : FramedFrom n h h2) (hc : n ≤ A.curRef) (hfo : n ≤ A.folRef) :
    FramedFrom n h (hFollowEmpty fuel A h2 none) :=
  framedFrom_trans hf (hFollowEmpty_frame n fuel A h2 none hf.le_len hc hfo)

/-- explore writes only through the visited reference. -/
theorem hExploreFuel_frame (n : Nat) (A : HNFA) :
    ∀ (fuel : Nat) (bw : Bool) (h : Heap) (st vref : Nat),
      n ≤ h.length → n ≤ vref →
      FramedFrom n h (hExploreFuel A bw fuel h st vref) := by
  intro fuel
  induction fuel with
  | zero => intro bw h st vref hn _; exact framedFrom_refl n h hn
  | succ f ih =>
    intro bw h st vref hn hv
    simp only [hExploreFuel]
    by_cases hc : (h.readSet vref).contains st = true
    · rw [if_pos hc]; exact framedFrom_refl n h hn
    · rw [if_neg hc]
      have hw : FramedFrom n h (h.write vref (.natSet (h.readSet vref ++ [st]))) :=
        framedFrom_write n h vref _ hn hv
      cases bw with
      | true =>
        rw [if_pos rfl]
        apply foldlInv (fun h2 => FramedFrom n h h2)
        · exact hw
        · intro hAcc o _ hPrev
          by_cases ht : A.hasTransitionH hAcc o st = true
          · rw [if_pos ht]
            exact framedFrom_trans hPrev (ih true hAcc o vref hPrev.le_len hv)
          · rw [if_neg ht]
            exact hPrev
      | false =>
        rw [if_neg (by simp)]
        apply foldlInv (fun h2 => FramedFrom n h h2)
        · exact hw
        · intro hAcc tg _ hPrev
          exact framedFrom_trans hPrev (ih false hAcc tg.1 vref hPrev.le_len hv)

/-- The generatingStates getter only allocates a fresh visited cell and
writes through it, and only changes the cache slot of the record. -/
theorem hGenerating_frame (n fuel : Nat) (A : HNFA) (h : Heap) (hn : n ≤ h.length) :
    FramedFrom n h (hGenerating fuel A h).2.2 ∧
    (hGenerating fuel A h).2.1 = { A with cacheGen := (hGenerating fuel A h).2.1.cacheGen } := by
  unfold hGenerating
  cases hcg : A.cacheGen with
  | some r =>
    refine ⟨framedFrom_refl n h hn, ?_⟩
    show A = { A with cacheGen := A.cacheGen }
    rfl
  | none =>
    refine ⟨?_, rfl⟩
    have halloc := framedFrom_alloc n h (Cell.natSet []) hn
    apply foldlInv (fun h2 => FramedFrom n h h2)
    · exact halloc
    · intro hAcc st _ hPrev
      exact framedFrom_trans hPrev
        (hExploreFuel_frame n A fuel true hAcc st (h.alloc (Cell.natSet [])).2
          hPrev.le_len (alloc_ref_ge h _ hn))

/-- result reads the heap and at most fills the generating cache. -/
theorem hResult_frame (n fuel : Nat) (A : HNFA) (h : Heap) (hn : n ≤ h.length) :
    FramedFrom n h (hResult fuel A h).2.2 ∧
    (hResult fuel A h).2.1 = { A with cacheGen := (hResult fuel A h).2.1.cacheGen } := by
  unfold hResult
  by_cases h1 : ¬A.isRunningH = true
  · rw [if_pos h1]
    exact ⟨framedFrom_refl n h hn, rfl⟩
  · rw [if_neg h1]
    by_cases h2 : shareAny [h.readSet A.curRef, h.readSet A.acceptRef] = true
    · rw [if_pos h2]
      exact ⟨framedFrom_refl n h hn, rfl⟩
    · rw [if_neg h2]
      obtain ⟨hf, hrec⟩ := hGenerating_frame n fuel A h hn
      by_cases h3 : shareAny [(hGenerating fuel A h).2.2.readSet A.curRef,
          (hGenerating fuel A h).1] = true
      · rw [if_pos h3]
        exact ⟨hf, hrec⟩
      · rw [if_neg h3]
        exact ⟨hf, hrec⟩

/-- reset allocates fresh followed and current cells (their references
are above the frame bound) and runs the closure through them. -/
theorem hReset_frame (n fuel : Nat) (A : HNFA) (h : Heap) (input : Option (List Char))
    (hn : n ≤ h.length) :
    FramedFrom n h (hReset fuel A h input).2 ∧
    n ≤ (hReset fuel A h input).1.curRef ∧ n ≤ (hReset fuel A h input).1.folRef := by
  have hAH := (mutableOrCopy_frame n A h hn).1
  have h1 : FramedFrom n h ((mutableOrCopy A h).2.alloc (Cell.folMap [])).1 :=
    framedFrom_trans hAH (framedFrom_alloc n _ _ hAH.le_len)
  simp only [hReset, restoreMode_curRef, restoreMode_folRef]
  refine ⟨?_, ?_, ?_⟩
  · refine framedFrom_then_followEmpty ?_ ?_ ?_
    · exact framedFrom_trans h1 (framedFrom_alloc n _ _ h1.le_len)
    · exact h1.le_len
    · exact hAH.le_len
  · exact h1.le_len
  · exact hAH.le_len

/-- step writes only through the followed-map reference and a freshly
allocated successor set, then runs the closure. -/
theorem hStep_frame (n fuel : Nat) (A : HNFA) (h : Heap)
    (hn : n ≤ h.length) (hcur : n ≤ A.curRef) (hfol : n ≤ A.folRef) :
    FramedFrom n h (hStep fuel A h).2 ∧
    n ≤ (hStep fuel A h).1.curRef ∧ n ≤ (hStep fuel A h).1.folRef := by
  obtain ⟨hAH, hAHc, hAHf, hAHrem, hAHst⟩ := mutableOrCopy_frame n A h hn
  have hfolb : n ≤ (mutableOrCopy A h).1.folRef := le_of_le_of_eq hfol hAHf.symm
  have hnref : n ≤ ((mutableOrCopy A h).2.alloc (Cell.natSet [])).2 := hAH.le_len
  unfold hStep
  by_cases hr : ¬A.isRunningH = true
  · rw [if_pos hr]
    exact hReset_frame n fuel A h none hn
  · rw [if_neg hr]
    cases hrem : A.remaining with
    | nil => exact ⟨framedFrom_refl n h hn, hcur, hfol⟩
    | cons c rest =>
      simp only [restoreMode_curRef, restoreMode_folRef]
      refine ⟨?_, ?_, ?_⟩
      · refine framedFrom_then_followEmpty ?_ ?_ ?_
        · apply foldlInv (fun h2 => FramedFrom n h h2)
          · exact framedFrom_trans hAH (framedFrom_alloc n _ _ hAH.le_len)
          · intro hAcc o _ hPrev
            apply foldlInv (fun h2 => FramedFrom n h h2)
            · exact hPrev
            · intro h2 tg _ hP2
              by_cases hg : tg.2.has (some c) = true
              · rw [if_pos hg]
                have hw1 : FramedFrom n h
                    (h2.write ((mutableOrCopy A h).2.alloc (Cell.natSet [])).2
                      (Cell.natSet (addIfAbsent
                        (h2.readSet ((mutableOrCopy A h).2.alloc (Cell.natSet [])).2) tg.1))) :=
                  framedFrom_trans hP2 (framedFrom_write n h2 _ _ hP2.le_len hnref)
                exact framedFrom_trans hw1
                  (framedFrom_write n _ _ _ hw1.le_len hfolb)
              · rw [if_neg hg]
                exact hP2
        · exact hnref
        · exact hfolb
      · exact hnref
      · exact hfolb

/-- The run loop frames the heap and keeps the current and followed
references of the returned object above the bound. -/
theorem hRunLoop_frame (n fuel : Nat) :
    ∀ (b : Nat) (A : HNFA) (h : Heap),
      n ≤ h.length → n ≤ A.curRef → n ≤ A.folRef →
      FramedFrom n h (hRunLoop fuel b A h).2 ∧
      n ≤ (hRunLoop fuel b A h).1.curRef ∧ n ≤ (hRunLoop fuel b A h).1.folRef := by
  intro b
  induction b with
  | zero =>
    intro A h hn hc hf
    exact ⟨framedFrom_refl n h hn, hc, hf⟩
  | succ b ih =>
    intro A h hn hc hf
    obtain ⟨hrf, hrrec⟩ := hResult_frame n fuel A h hn
    have hc2 : n ≤ (hResult fuel A h).2.1.curRef := by rw [hrrec]; exact hc
    have hf2 : n ≤ (hResult fuel A h).2.1.folRef := by rw [hrrec]; exact hf
    simp only [hRunLoop]
    by_cases hrem : A.remaining = []
    · rw [if_pos hrem]
      exact ⟨framedFrom_refl n h hn, hc, hf⟩
    · rw [if_neg hrem]
      by_cases hr1 : (hResult fuel A h).1 ≠ -1
      · rw [if_pos hr1]
        obtain ⟨hsf, hsc, hsf2⟩ := hStep_frame n fuel (hResult fuel A h).2.1
          (hResult fuel A h).2.2 hrf.le_len hc2 hf2
        obtain ⟨hlf, hlc, hlf2⟩ := ih
          (hStep fuel (hResult fuel A h).2.1 (hResult fuel A h).2.2).1
          (hStep fuel (hResult fuel A h).2.1 (hResult fuel A h).2.2).2
          (framedFrom_trans hrf hsf).le_len hsc hsf2
        exact ⟨framedFrom_trans (framedFrom_trans hrf hsf) hlf, hlc, hlf2⟩
      · rw [if_neg hr1]
        exact ⟨hrf, hc2, hf2⟩

/-- run frames the heap: it at most fills the cache, appends to the
remaining input, resets through fresh cells, and loops over step. -/
theorem hRun_frame (n fuel : Nat) (A : HNFA) (h : Heap) (input : List Char)
    (hn : n ≤ h.length) (hc : n ≤ A.curRef) (hf : n ≤ A.folRef) :
    FramedFrom n h (hRun fuel A h input).2 := by
  obtain ⟨hrf, hrrec⟩ := hResult_frame n fuel A h hn
  have main : ∀ (B : HNFA) (hb : Heap), FramedFrom n h hb → n ≤ B.curRef → n ≤ B.folRef →
      FramedFrom n h
        (hRunLoop fuel
          (if ¬ B.isRunningH = true then hReset fuel B hb none else (B, hb)).1.remaining.length
          (if ¬ B.isRunningH = true then hReset fuel B hb none else (B, hb)).1
          (if ¬ B.isRunningH = true then hReset fuel B hb none else (B, hb)).2).2 := by
    intro B hb hfr hbc hbf
    by_cases hr : ¬ B.isRunningH = true
    · rw [if_pos hr]
      obtain ⟨x, y, z⟩ := hReset_frame n fuel B hb none hfr.le_len
      obtain ⟨w, _, _⟩ := hRunLoop_frame n fuel
        (hReset fuel B hb none).1.remaining.length
        (hReset fuel B hb none).1 (hReset fuel B hb none).2
        (framedFrom_trans hfr x).le_len y z
      exact framedFrom_trans (framedFrom_trans hfr x) w
    · rw [if_neg hr]
      obtain ⟨w, _, _⟩ := hRunLoop_frame n fuel B.remaining.length B hb hfr.le_len hbc hbf
      exact framedFrom_trans hfr w
  obtain ⟨hAHfr, hAHc, hAHf2, hAHrem, hAHst⟩ :=
    mutableOrCopy_frame n (hResult fuel A h).2.1 (hResult fuel A h).2.2 hrf.le_len
  have hc2 : n ≤ (mutableOrCopy (hResult fuel A h).2.1 (hResult fuel A h).2.2).1.curRef := by
    rw [hAHc, hrrec]; exact hc
  have hf2 : n ≤ (mutableOrCopy (hResult fuel A h).2.1 (hResult fuel A h).2.2).1.folRef := by
    rw [hAHf2, hrrec]; exact hf
  simp only [hRun]
  by_cases h1 : (hResult fuel A h).1 = -1
  · rw [if_pos h1]; exact hrf
  · rw [if_neg h1]
    refine main _ _ (framedFrom_trans hrf hAHfr) ?_ ?_
    · by_cases h2 : input ≠ []
      · rw [if_pos h2]; exact hc2
      · rw [if_neg h2]; exact hc2
    · by_cases h2 : input ≠ []
      · rw [if_pos h2]; exact hf2
      · rw [if_neg h2]; exact hf2

/-- Below the frame bound the two heaps read the same. -/
theorem FramedFrom.read_eq {n : Nat} {h h2 : Heap} (f : FramedFrom n h h2) {r : Nat}
    (hr : r < n) : h2[r]? = h[r]? := f.2.2 r hr

/-- A heap framed over the whole original heap is observationally
identical through any valid set of references. -/
theorem observe_framed {A : HNFA} {h h2 : Heap}
    (f : FramedFrom h.length h h2) (v : ValidRefs A h) :
    observe A h2 = observe A h := by
  obtain ⟨v1, v2, v3, v4, v5, v6, v7⟩ := v
  have e1 : h2.readSet A.statesRef = h.readSet A.statesRef := by
    unfold Heap.readSet; rw [f.read_eq v1]
  have e2 : h2.readNames A.namesRef = h.readNames A.namesRef := by
    unfold Heap.readNames; rw [f.read_eq v2]
  have e3 : h2.readSet A.acceptRef = h.readSet A.acceptRef := by
    unfold Heap.readSet; rw [f.read_eq v3]
  have e4 : (h2.readOuter A.transRef).map (fun p => (p.1, h2.readInner p.2)) =
      (h.readOuter A.transRef).map (fun p => (p.1, h.readInner p.2)) := by
    have e4o : h2.readOuter A.transRef = h.readOuter A.transRef := by
      unfold Heap.readOuter; rw [f.read_eq v4]
    rw [e4o]
    apply List.map_congr_left
    intro p hp
    have hin : h2.readInner p.2 = h.readInner p.2 := by
      unfold Heap.readInner; rw [f.read_eq (v7 p hp)]
    rw [hin]
  have e5 : h2.readSet A.curRef = h.readSet A.curRef := by
    unfold Heap.readSet; rw [f.read_eq v5]
  unfold observe
  rw [e1, e2, e3, e4, e5]

/-- The whole accepts pipeline frames the heap over its full original
extent: every pre-existing cell is unchanged. -/
theorem hAccepts_frame (fuel : Nat) (A : HNFA) (h : Heap) (input : List Char) :
    FramedFrom h.length h (hAccepts fuel A h input).2 := by
  have hC := (hMutableCopy_frame h.length A h (le_refl _)).1
  obtain ⟨hR, hRc, hRf⟩ := hReset_frame h.length fuel (hMutableCopy A h).1
    (hMutableCopy A h).2 (some input) hC.le_len
  have h1 := framedFrom_trans hC hR
  have hU := hRun_frame h.length fuel
    (hReset fuel (hMutableCopy A h).1 (hMutableCopy A h).2 (some input)).1
    (hReset fuel (hMutableCopy A h).1 (hMutableCopy A h).2 (some input)).2 []
    h1.le_len hRc hRf
  have h2 := framedFrom_trans h1 hU
  have hres := (hResult_frame h.length fuel
    (hRun fuel (hReset fuel (hMutableCopy A h).1 (hMutableCopy A h).2 (some input)).1
      (hReset fuel (hMutableCopy A h).1 (hMutableCopy A h).2 (some input)).2 []).1
    (hRun fuel (hReset fuel (hMutableCopy A h).1 (hMutableCopy A h).2 (some input)).1
      (hReset fuel (hMutableCopy A h).1 (hMutableCopy A h).2 (some input)).2 []).2
    h2.le_len).1
  simp only [hAccepts]
  exact framedFrom_trans h2 hres

/-- Witness for C3 amended at a concrete input: the not-running exNFA,
its start 1, and its a-edge from 1 to 2. -/
theorem c3_amended_witness :
    exNFA.statesL.contains exNFA.start = true ∧ exNFA.hasTransition 1 2 = true ∧
    (exNFA.setAccept 1 (exNFA.isAccept 1) = (exNFA, true) ∧
     exNFA.setName 1 (exNFA.name 1) = (exNFA, true) ∧
     exNFA.setStart exNFA.start = (exNFA, true) ∧
     exNFA.setTransitionR 5 1 2 (.grp (exNFA.symbols 1 2)) = some (exNFA, true)) :=
  ⟨by decide, by decide,
   c3_amended_noop_identity exNFA 1 1 2 5 (by decide) (by decide) (by decide)
     (by intro hcon; exact absurd hcon.1 (by decide))⟩

/-- C10: accepts(input) evaluates acceptance on a mutable copy of the
automaton, so the receiver is observationally unchanged by the call:
for any automaton object whose references all point into the heap, every
observable of the receiver - its state set, name map, start, accept set,
transition table, alphabet, running status, current states, and remaining
input - reads the same from the heap after accepts as before it. -/
theorem c10_accepts_preserves_receiver (fuel : Nat) (A : HNFA) (h : Heap)
    (input : List Char) (v : ValidRefs A h) :
    observe A (hAccepts fuel A h input).2 = observe A h :=
  observe_framed (hAccepts_frame fuel A h input) v

/-- Witness for C10 at a concrete two-state automaton in an eight-cell
heap, run on the single-character input a. -/
theorem c10_accepts_preserves_receiver_witness :
    ValidRefs exHNFA exHeap ∧
    observe exHNFA (hAccepts 20 exHNFA exHeap ['a']).2 = observe exHNFA exHeap :=
  ⟨by decide, c10_accepts_preserves_receiver 20 exHNFA exHeap ['a'] (by decide)⟩

end AD
